import Mathlib

/-!
Verification of the Symmetric-Key Challenge-Response Insight Generator.

Shallow embedding of the repository's core modules over `List Nat` byte
strings:

* `core/crypto_utils.py` — AES-CBC with PKCS7 padding.  The AES block
  permutation itself is an external library primitive; it is abstracted as a
  key-indexed pair of functions `E D : List Nat → List Nat → List Nat` on
  16-byte blocks, and theorems assume only that `D key` inverts `E key` on
  16-byte blocks and that encrypted blocks keep their length.  CBC chaining,
  IV handling and PKCS7 padding are modelled concretely.
* `core/protocol_oneway.py`, `core/protocol_twoway.py` — the protocol
  verification functions; Python exceptions raised during decryption are
  modelled by `Except String`.
* `network/communication.py` — length-prefixed framing and the hex
  re-decoding heuristic.
* `utils/entropy.py` — Shannon entropy of the byte frequency distribution.
* `network/router.py`, `network/attacker.py` — one forwarding step of the
  router with the passive recorder hook.
* `simulation/session_manager.py` — the session table and its callback
  handlers as an atomic-step transition system (in the source every table
  access happens under the single session lock).
-/

namespace AuthSim

/-- AES block size in bytes (`128` bits); bytes are modelled as naturals. -/
def blockSize : Nat := 16

/-- Pointwise XOR of two byte strings (CBC chaining). -/
def xorBytes (a b : List Nat) : List Nat := List.zipWith Nat.xor a b

/-- Split a byte string into consecutive `blockSize`-byte chunks.  The fuel
argument makes the recursion structural so concrete instances reduce. -/
def toBlocksAux : Nat → List Nat → List (List Nat)
  | 0, _ => []
  | fuel + 1, l =>
    if l = [] then [] else l.take blockSize :: toBlocksAux fuel (l.drop blockSize)

/-- Split a byte string into consecutive `blockSize`-byte chunks. -/
def toBlocks (l : List Nat) : List (List Nat) := toBlocksAux l.length l

/-- PKCS7 padding as applied by `encrypt_message` (`padding.PKCS7(128)`):
append `blockSize - len % blockSize` copies of that very value, a full extra
block when the length is already a multiple of the block size. -/
def pkcs7pad (data : List Nat) : List Nat :=
  data ++
    List.replicate (blockSize - data.length % blockSize)
      (blockSize - data.length % blockSize)

/-- PKCS7 unpadding as performed by the library unpadder inside
`decrypt_message`: the input must be a nonzero multiple of the block size,
its last byte `p` must lie in `[1, blockSize]`, and the final `p` bytes must
all equal `p`; otherwise the library raises `ValueError`, modelled as
`Except.error`. -/
def pkcs7unpad (data : List Nat) : Except String (List Nat) :=
  if data.length % blockSize ≠ 0 ∨ data.length = 0 then
    Except.error "Invalid padding bytes"
  else
    let p := data.getLastD 0
    if 1 ≤ p ∧ p ≤ blockSize ∧ ∀ b ∈ data.drop (data.length - p), b = p then
      Except.ok (data.take (data.length - p))
    else Except.error "Invalid padding bytes"

/-- CBC encryption over a block list: each plaintext block is XORed with the
previous ciphertext block (initially the IV) and then block-encrypted. -/
def cbcEncryptBlocks (E : List Nat → List Nat) : List Nat → List (List Nat) → List (List Nat)
  | _, [] => []
  | prev, b :: bs =>
    E (xorBytes prev b) :: cbcEncryptBlocks E (E (xorBytes prev b)) bs

/-- CBC decryption over a block list, inverse chaining of
`cbcEncryptBlocks`. -/
def cbcDecryptBlocks (D : List Nat → List Nat) : List Nat → List (List Nat) → List (List Nat)
  | _, [] => []
  | prev, c :: cs => xorBytes prev (D c) :: cbcDecryptBlocks D c cs

/-- `encrypt_message(key, plaintext)` from `core/crypto_utils.py`: AES-CBC
with PKCS7 padding, returning `iv ++ ciphertext`.  The fresh 16-byte IV drawn
from `os.urandom(16)` inside the function is passed explicitly, and the AES
block encryption is the parameter `E` applied to `key`. -/
def encrypt_message (E : List Nat → List Nat → List Nat) (key iv plaintext : List Nat) : List Nat :=
  iv ++ (cbcEncryptBlocks (E key) iv (toBlocks (pkcs7pad plaintext))).flatten

/-- `decrypt_message(key, ciphertext)` from `core/crypto_utils.py`: split off
the first 16 bytes as IV, CBC-decrypt the remainder, remove the PKCS7
padding.  The library raises `ValueError` when the IV slice is not 16 bytes
long, when the remainder is not a multiple of the block size, or when the
padding is invalid; those exceptions are modelled as `Except.error`. -/
def decrypt_message (D : List Nat → List Nat → List Nat) (key ciphertext : List Nat) : Except String (List Nat) :=
  if (ciphertext.take blockSize).length ≠ blockSize then
    Except.error "Invalid IV size"
  else if (ciphertext.drop blockSize).length % blockSize ≠ 0 then
    Except.error "data not multiple of block length"
  else
    pkcs7unpad
      ((cbcDecryptBlocks (D key) (ciphertext.take blockSize)
        (toBlocks (ciphertext.drop blockSize))).flatten)

/-- Result shape of `bob_verify_response` in `core/protocol_oneway.py` and of
`bob_verify_final` in `core/protocol_twoway.py`: the decrypted plaintext (the
source stores its hex encoding; the bytes are kept here, hex being
injective), the boolean outcome and the error tag.  The `timestamp` field of
the source dict is plain wall-clock metadata and is not modelled. -/
structure VerifyResult where
  decrypted_plain : Option (List Nat)
  success : Bool
  error : Option String
deriving DecidableEq, Repr

/-- Result shape of `alice_finalize` in `core/protocol_twoway.py`. -/
structure FinalizeResult where
  c2 : Option (List Nat)
  success : Bool
  error : Option String
deriving DecidableEq, Repr

/-- `bob_verify_response(rb_bytes, alice_cipher, key)` from
`core/protocol_oneway.py`: decrypt Alice's ciphertext and compare with the
challenge nonce; any decryption exception is caught and converted into a
`success=False` result tagged `decryption_failed: <cause>`. -/
def bob_verify_response (D : List Nat → List Nat → List Nat) (key rb_bytes alice_cipher : List Nat) : VerifyResult :=
  match decrypt_message D key alice_cipher with
  | Except.ok plaintext =>
    ⟨some plaintext, decide (plaintext = rb_bytes), none⟩
  | Except.error e => ⟨none, false, some ("decryption_failed: " ++ e)⟩

/-- `alice_finalize(c1_bytes, ra_expected, key)` from
`core/protocol_twoway.py`: decrypt `c1`, split at `len(ra_expected)`, fail
with `ra_mismatch` when the prefix differs, otherwise answer with
`c2 = encrypt_message(key, rb)`.  The fresh IV used by that inner encryption
is the explicit parameter `iv`; decryption exceptions are caught and
converted as in the one-way protocol. -/
def alice_finalize (E D : List Nat → List Nat → List Nat) (key iv c1_bytes ra_expected : List Nat) : FinalizeResult :=
  match decrypt_message D key c1_bytes with
  | Except.ok plaintext =>
    if plaintext.take ra_expected.length ≠ ra_expected then
      ⟨none, false, some "ra_mismatch"⟩
    else
      ⟨some (encrypt_message E key iv (plaintext.drop ra_expected.length)), true, none⟩
  | Except.error e => ⟨none, false, some ("decryption_failed: " ++ e)⟩

/-- `bob_verify_final(rb_expected, c2_bytes, key)` from
`core/protocol_twoway.py`: decrypt `c2` and compare with the retained `rb`;
decryption exceptions are caught and converted as above. -/
def bob_verify_final (D : List Nat → List Nat → List Nat) (key rb_expected c2_bytes : List Nat) : VerifyResult :=
  match decrypt_message D key c2_bytes with
  | Except.ok plaintext => ⟨some plaintext, decide (plaintext = rb_expected), none⟩
  | Except.error e => ⟨none, false, some ("decryption_failed: " ++ e)⟩

/-- JSON values as they appear in a decoded envelope of
`network/communication.py`; `jbytes` stands for a Python `bytes` value
produced by the hex re-decoding step.  Strings are kept as character lists. -/
inductive JVal where
  | jstr (s : List Char)
  | jbytes (b : List Nat)
  | jnum (n : Int)
  | jbool (b : Bool)
  | jnull
deriving DecidableEq, Repr

/-- The lowercase hex alphabet `"0123456789abcdef"` used by the re-decoding
check in `_post_recv`. -/
def hexAlphabet : List Char :=
  ['0', '1', '2', '3'] ++ ['4', '5', '6', '7'] ++ ['8', '9', 'a', 'b'] ++ ['c', 'd', 'e', 'f']

/-- Membership test `c in "0123456789abcdef"` from `_post_recv`. -/
def isHexDigitChar (c : Char) : Bool :=
  hexAlphabet.contains c

/-- Numeric value of a lowercase hex digit. -/
def hexDigitVal (c : Char) : Nat :=
  if c.isDigit then c.toNat - 48 else c.toNat - 87

/-- `bytes.fromhex` on a character list: pairs of hex digits become one byte;
an odd-length or non-hex input raises `ValueError`, modelled as `none`. -/
def bytesFromHex : List Char → Option (List Nat)
  | [] => some []
  | c1 :: c2 :: rest =>
    if isHexDigitChar c1 && isHexDigitChar c2 then
      (bytesFromHex rest).map (fun bs => (16 * hexDigitVal c1 + hexDigitVal c2) :: bs)
    else none
  | [_] => none

/-- Lowercase hex encoding of a byte (`bytes.hex()` on one byte). -/
def hexCharOfNat (n : Nat) : Char :=
  if n < 10 then Char.ofNat (48 + n) else Char.ofNat (87 + n)

/-- Lowercase hex encoding of a byte string (`bytes.hex()`). -/
def bytesToHex (b : List Nat) : List Char :=
  (b.map (fun x => [hexCharOfNat (x / 16), hexCharOfNat (x % 16)])).flatten

/-- Re-decoding heuristic applied to one top-level value by `_post_recv` in
`network/communication.py`: a string whose characters all lie in
`"0123456789abcdef"` is fed to `bytes.fromhex`; if that raises (odd length)
the exception is swallowed and the value is left unchanged.  Non-string
values are never touched. -/
def postRecvVal (v : JVal) : JVal :=
  match v with
  | JVal.jstr s =>
    if s.all isHexDigitChar then
      match bytesFromHex s with
      | some bs => JVal.jbytes bs
      | none => JVal.jstr s
    else JVal.jstr s
  | v => v

/-- `_post_recv(obj)` from `network/communication.py`: apply the hex
re-decoding heuristic to every top-level value of the decoded JSON object
(keys and iteration order are untouched). -/
def post_recv (obj : List (String × JVal)) : List (String × JVal) :=
  obj.map (fun kv => (kv.1, postRecvVal kv.2))

/-- Big-endian value of a byte list (`struct.unpack("!I", hdr)`). -/
def beNat (l : List Nat) : Nat := l.foldl (fun acc b => acc * 256 + b) 0

/-- `recv_msg(sock, timeout)` from `network/communication.py`.  The socket is
modelled by the byte string `stream` that the peer sends before closing and
by the flag `timedOut` (whether the first read hits the timeout); the JSON
deserializer `json.loads` is the external parameter `parseJson`, returning
`none` both for malformed JSON and for JSON that is not an object (either
way the source's blanket `except` yields `None`).  The source returns `None`
on timeout, on a clean close (empty header read), on a partial length
prefix, on a truncated body and on a parse failure alike. -/
def recv_msg (parseJson : List Nat → Option (List (String × JVal)))
    (timedOut : Bool) (stream : List Nat) : Option (List (String × JVal)) :=
  if timedOut then none
  else if (stream.take 4).length < 4 then none
  else
    let n := beNat (stream.take 4)
    let data := (stream.drop 4).take n
    if data.length < n then none
    else
      match parseJson data with
      | none => none
      | some obj => some (post_recv obj)

/-- `shannon_entropy(data)` from `utils/entropy.py`: `0.0` for empty input,
otherwise `-Σ p·log2 p` over the frequency distribution of the byte values
occurring in the input (the source iterates over the values of its frequency
dictionary, i.e. over the distinct bytes).  The source computes with IEEE
floats; the real-number idealization is used here. -/
noncomputable def shannon_entropy (data : List Nat) : ℝ :=
  if data = [] then 0
  else
    -∑ b ∈ data.toFinset,
      ((data.count b : ℝ) / (data.length : ℝ)) *
        Real.logb 2 ((data.count b : ℝ) / (data.length : ℝ))

/-- One record of `AttackerRecorder` in `network/attacker.py`: the snapshot
`(time, from, to, payload)` appended by `record`; dict keys `from`/`to` are
rendered as `fromName`/`toName`. -/
structure AttackerRecord where
  time : Nat
  fromName : String
  toName : String
  payload : List (String × JVal)
deriving DecidableEq, Repr

/-- The JSON-serializable snapshot taken inside `AttackerRecorder.record`:
every bytes-valued field of the payload is replaced by its hex encoding,
all other values are copied unchanged. -/
def toSafePayload (payload : List (String × JVal)) : List (String × JVal) :=
  payload.map (fun kv =>
    match kv.2 with
    | JVal.jbytes b => (kv.1, JVal.jstr (bytesToHex b))
    | v => (kv.1, v))

/-- `AttackerRecorder.record(sender, dest, payload)` from
`network/attacker.py`: append the snapshot to the in-memory list (the
source's lock makes the append atomic; the state is the list itself). -/
def recorderAppend (records : List AttackerRecord) (now : Nat)
    (sender dest : String) (payload : List (String × JVal)) : List AttackerRecord :=
  records ++ [⟨now, sender, dest, toSafePayload payload⟩]

/-- Outcome of the interceptor hook in `Router._handle_conn`: `none` is the
drop sentinel, `some p` the (possibly modified) payload.  When no
interceptor is installed the payload passes unchanged. -/
def interceptResult
    (interceptor : Option (String → String → List (String × JVal) → Option (List (String × JVal))))
    (sender dest : String) (payload : List (String × JVal)) : Option (List (String × JVal)) :=
  match interceptor with
  | none => some payload
  | some f => f sender dest payload

/-- One iteration of the forwarding loop of `Router._handle_conn` in
`network/router.py` for a `send`-typed envelope.  The registry maps each
registered name to whether a send on its connection currently succeeds
(socket liveness); the result is the recorder log after the step, the list
of messages actually forwarded (empty or a singleton), and the registry
after the step (a dead destination is evicted).  The interceptor runs
first; when it drops the message the loop `continue`s before the recorder
hook, otherwise the recorder (when installed) stores its snapshot before
the destination is even looked up. -/
def handle_send
    (interceptor : Option (String → String → List (String × JVal) → Option (List (String × JVal))))
    (recorderInstalled : Bool) (now : Nat)
    (registry : List (String × Bool))
    (records : List AttackerRecord)
    (sender dest : String) (payload : List (String × JVal)) :
    List AttackerRecord × List (String × List (String × JVal)) × List (String × Bool) :=
  match interceptResult interceptor sender dest payload with
  | none => (records, [], registry)
  | some payload2 =>
    let records2 :=
      if recorderInstalled then recorderAppend records now sender dest payload2
      else records
    match registry.lookup dest with
    | none => (records2, [], registry)
    | some ok =>
      if ok then (records2, [(dest, payload2)], registry)
      else (records2, [], registry.eraseP (fun kv => kv.1 == dest))

/-- One entry of the orchestrator's session table
(`SessionManager.session_state` in `simulation/session_manager.py`), with
the fields the run loop and the callbacks read or write.  Hex-string fields
(`ra`, `rb`, the response ciphertexts) are stored as the byte strings they
encode, hex encoding being injective; `nonce_entropy` keeps the
concatenated nonce bytes whose `shannon_entropy` the source stores. -/
structure Session where
  protocol_type : String
  session_id : Nat
  ra : Option (List Nat)
  rb : Option (List Nat)
  rb_bytes : Option (List Nat)
  alice_response : Option (List Nat)
  bob_response : Option (List Nat)
  success : Option Bool
  timestamp : Nat
  attack_flag : Bool
  is_replay : Bool
  is_random_guess : Bool
  alice_responded : Bool
  bob_responded : Bool
  alice_final_sent : Bool
  logged : Bool
  alice_final_error : Option String
  nonce_entropy : Option (List Nat)
deriving DecidableEq, Repr

/-- One dataset row appended to `SessionManager.records`. -/
structure SessionRecord where
  protocol_type : String
  session_id : Nat
  ra : Option (List Nat)
  rb : Option (List Nat)
  alice_response : Option (List Nat)
  bob_response : Option (List Nat)
  success : Bool
  timestamp : Nat
  attack_flag : Bool
  nonce_entropy : Option (List Nat)
  is_replay : Bool
  is_random_guess : Bool
deriving DecidableEq, Repr

/-- The orchestrator state guarded by `SessionManager._lock`: the session
table (an insertion-ordered association list, mirroring the Python dict)
and the output record list. -/
structure SMState where
  session_state : List (Nat × Session)
  records : List SessionRecord
deriving DecidableEq, Repr

/-- Dict lookup by session id (first entry with the key). -/
def lookupSession : List (Nat × Session) → Nat → Option Session
  | [], _ => none
  | (k, s) :: rest, sid => if k = sid then some s else lookupSession rest sid

/-- Dict update in place: rewrite the value stored under `sid`. -/
def updateSession : List (Nat × Session) → Nat → (Session → Session) → List (Nat × Session)
  | [], _, _ => []
  | (k, s) :: rest, sid, f =>
    (if k = sid then (k, f s) else (k, s)) :: updateSession rest sid f

/-- The `for s_id, s in self.session_state.items(): if ...: sid = s_id;
break` search pattern of the callbacks: first session id (in insertion
order) whose entry satisfies the predicate. -/
def findSession : List (Nat × Session) → (Nat → Session → Bool) → Option Nat
  | [], _ => none
  | (k, s) :: rest, p => if p k s then some k else findSession rest p

/-- Python truthiness of an optional byte string (`b.hex() if b else None`
and the `if s.get(...)` guards): `none` and the empty string are falsy. -/
def noneIfEmpty (b : List Nat) : Option (List Nat) :=
  if b = [] then none else some b

/-- Truthiness test for an optional byte-string field. -/
def optTruthy (o : Option (List Nat)) : Bool :=
  match o with
  | some bs => !bs.isEmpty
  | none => false

/-- `SessionManager._alice_on_challenge_rb(payload)`: look up the first
not-yet-responded one-way session whose stored `rb` matches the payload
nonce, send the encrypted response (network effect, not part of the table
state), and on a match mark the session responded.  `iv` is the fresh IV
consumed by the inner `encrypt_message`. -/
def alice_on_challenge_rb (E : List Nat → List Nat → List Nat)
    (key iv rbPayload : List Nat) (st : SMState) : SMState :=
  let rb_hex := noneIfEmpty rbPayload
  match findSession st.session_state (fun _ s =>
      s.protocol_type == "one-way" && s.rb == rb_hex && !s.alice_responded) with
  | none => st
  | some sid =>
    { st with
      session_state := updateSession st.session_state sid (fun s =>
        { s with
          alice_response := some (encrypt_message E key iv rbPayload),
          alice_responded := true,
          nonce_entropy := some rbPayload }) }

/-- `SessionManager._bob_on_init_ra(payload)`: Bob answers a two-way
initiation with `c1 = E_K(ra ++ rb)` for a fresh `rb` (the parameter
`rbNew`, drawn by `protocol_twoway.bob_respond`), and the matching session
stores `rb` and the response. -/
def bob_on_init_ra (E : List Nat → List Nat → List Nat)
    (key iv raPayload rbNew : List Nat) (st : SMState) : SMState :=
  let ra_hex := noneIfEmpty raPayload
  let c1 := encrypt_message E key iv (raPayload ++ rbNew)
  match findSession st.session_state (fun _ s =>
      s.protocol_type == "two-way" && s.ra == ra_hex && !s.bob_responded) with
  | none => st
  | some sid =>
    { st with
      session_state := updateSession st.session_state sid (fun s =>
        { s with
          rb := some rbNew,
          bob_response := some c1,
          bob_responded := true,
          rb_bytes := some rbNew }) }

/-- `SessionManager._alice_on_bob_ra_rb(payload)`: Alice finalizes the
two-way round.  A missing `c1` or `ra` in the payload makes the Python
`alice_finalize` call raise inside its own `try` and yields the
`decryption_failed` failure result.  On success the session stores `c2` and
sets `alice_final_sent`; on failure it stores the error tag and writes
`alice_final_sent = False` (the matched session already had it `False`). -/
def alice_on_bob_ra_rb (E D : List Nat → List Nat → List Nat)
    (key iv : List Nat) (raPayload c1Payload : Option (List Nat)) (st : SMState) : SMState :=
  let ra_hex :=
    match raPayload with
    | none => none
    | some ra => noneIfEmpty ra
  let res : FinalizeResult :=
    match c1Payload, raPayload with
    | some c1, some ra => alice_finalize E D key iv c1 ra
    | _, _ => ⟨none, false, some "decryption_failed: TypeError"⟩
  match findSession st.session_state (fun _ s =>
      s.protocol_type == "two-way" && s.ra == ra_hex && !s.alice_final_sent) with
  | none => st
  | some sid =>
    if res.success then
      { st with
        session_state := updateSession st.session_state sid (fun s =>
          { s with
            alice_response := res.c2,
            alice_final_sent := true,
            nonce_entropy := some (s.ra.getD [] ++ s.rb.getD []) }) }
    else
      { st with
        session_state := updateSession st.session_state sid (fun s =>
          { s with
            alice_response := none,
            alice_final_error := res.error,
            alice_final_sent := false }) }

/-- First critical section of
`SessionManager._on_incoming_response_rb_at_bob(payload)` — the
`with self._lock` block around the session search: pick the first unlogged
one-way session with a truthy `rb` (the search accepts the first such
session; no nonce comparison ties it to the payload). -/
def on_incoming_response_rb_find (st : SMState) : Option Nat :=
  findSession st.session_state (fun _ s =>
    s.protocol_type == "one-way" && !s.logged && optTruthy s.rb)

/-- Remainder of `_on_incoming_response_rb_at_bob` for a found session id:
the unlocked reads of the session's fields and the `bob_verify_response`
call, then the second critical section that appends the dataset row and
sets `logged`.  The second section does *not* re-check `logged`.  (Between
the two sections only `logged` can change — no other thread writes the
fields this code reads — so reading the fields here, at commit time, is
equivalent to the source's unlocked reads.  The source indexes
`self.session_state[sid]` directly; the found id is always present.) -/
def on_incoming_response_rb_commit (D : List Nat → List Nat → List Nat)
    (key : List Nat) (respPayload : Option (List Nat)) (sid : Nat) (st : SMState) : SMState :=
  match lookupSession st.session_state sid with
  | none => st
  | some s =>
    let ok : Bool :=
      match s.rb, respPayload with
      | some rbBytes, some resp => (bob_verify_response D key rbBytes resp).success
      | _, _ => false
    let row : SessionRecord :=
      { protocol_type := "one-way", session_id := sid, ra := none, rb := s.rb,
        alice_response := s.alice_response, bob_response := none,
        success := ok, timestamp := s.timestamp, attack_flag := s.attack_flag,
        nonce_entropy := s.nonce_entropy, is_replay := s.is_replay,
        is_random_guess := s.is_random_guess }
    { session_state := updateSession st.session_state sid (fun s2 => { s2 with logged := true }),
      records := st.records ++ [row] }

/-- `SessionManager._on_incoming_response_rb_at_bob(payload)` executed with
its two critical sections back to back, i.e. without another thread
acquiring the session lock in between.  The sequential trace model below
uses this composition; the claim C7 analysis exhibits the interleaving it
excludes. -/
def on_incoming_response_rb_at_bob (D : List Nat → List Nat → List Nat)
    (key : List Nat) (respPayload : Option (List Nat)) (st : SMState) : SMState :=
  match on_incoming_response_rb_find st with
  | none => st
  | some sid => on_incoming_response_rb_commit D key respPayload sid st

/-- First critical section of
`SessionManager._on_incoming_alice_final_at_bob(payload)`: the session
search.  This callback is *dead code*: `start_components` registers only
`on_init_ra` and `on_response_rb` on Bob, and `BobClient.run` dispatches
only the `init_ra` and `response_rb` payload types — no `alice_final`
handler is ever wired, so in the program this function never runs and
two-way sessions are logged solely by the reconciliation pass. -/
def on_incoming_alice_final_find (st : SMState) : Option Nat :=
  findSession st.session_state (fun _ s =>
    s.protocol_type == "two-way" && optTruthy s.rb_bytes && !s.logged)

/-- Second part of `_on_incoming_alice_final_at_bob` (unlocked verification
followed by the append+`logged` critical section, again without a `logged`
re-check); dead code, see `on_incoming_alice_final_find`. -/
def on_incoming_alice_final_commit (D : List Nat → List Nat → List Nat)
    (key : List Nat) (c2Payload : Option (List Nat)) (sid : Nat) (st : SMState) : SMState :=
  match lookupSession st.session_state sid with
  | none => st
  | some s =>
    let ok : Bool :=
      match s.rb_bytes, c2Payload with
      | some rbBytes, some c2 => (bob_verify_final D key rbBytes c2).success
      | _, _ => false
    let row : SessionRecord :=
      { protocol_type := "two-way", session_id := sid, ra := s.ra, rb := s.rb,
        alice_response := s.alice_response, bob_response := s.bob_response,
        success := ok, timestamp := s.timestamp, attack_flag := s.attack_flag,
        nonce_entropy := s.nonce_entropy, is_replay := s.is_replay,
        is_random_guess := s.is_random_guess }
    { session_state := updateSession st.session_state sid (fun s2 => { s2 with logged := true }),
      records := st.records ++ [row] }

/-- The uninterleaved composition of the two sections of
`_on_incoming_alice_final_at_bob`; never invoked by the program (the
callback is never registered), kept only as the embedding of the source
function. -/
def on_incoming_alice_final_at_bob (D : List Nat → List Nat → List Nat)
    (key : List Nat) (c2Payload : Option (List Nat)) (st : SMState) : SMState :=
  match on_incoming_alice_final_find st with
  | none => st
  | some sid => on_incoming_alice_final_commit D key c2Payload sid st

/-- Session creation in `SessionManager.run`: insert the skeleton record
with all progress flags `False`, then store the freshly generated nonce
(`rb` for one-way, `ra` for two-way) and the timestamp.  The Python dict
insert appends at the end of the iteration order. -/
def create_session (sid : Nat) (proto : String) (ts : Nat)
    (aflag irep irg : Bool) (nonce : List Nat) (st : SMState) : SMState :=
  let skel : Session :=
    { protocol_type := proto, session_id := sid, ra := none, rb := none,
      rb_bytes := none, alice_response := none, bob_response := none,
      success := none, timestamp := ts, attack_flag := aflag,
      is_replay := irep, is_random_guess := irg, alice_responded := false,
      bob_responded := false, alice_final_sent := false, logged := false,
      alice_final_error := none, nonce_entropy := none }
  let withNonce :=
    if proto == "one-way" then { skel with rb := some nonce }
    else { skel with ra := some nonce }
  { st with session_state := st.session_state ++ [(sid, withNonce)] }

/-- Shared shape of the two reconciliation blocks in `SessionManager.run`:
look up one session, and when the guard holds append its row and set
`logged`. -/
def logIfStep (st : SMState) (sid : Nat) (guard : Session → Bool)
    (row : Session → SessionRecord) : SMState :=
  match lookupSession st.session_state sid with
  | none => st
  | some s =>
    if guard s then
      { session_state := updateSession st.session_state sid (fun s2 => { s2 with logged := true }),
        records := st.records ++ [row s] }
    else st

/-- Verification outcome used by the one-way reconciliation block
(`bob_verify_response` on the stored `rb` and `alice_response`). -/
def reconcileOneWaySuccess (D : List Nat → List Nat → List Nat) (key : List Nat)
    (s : Session) : Bool :=
  match s.alice_response, s.rb with
  | some ar, some rbh => (bob_verify_response D key rbh ar).success
  | _, _ => false

/-- Verification outcome used by the two-way reconciliation block
(`bob_verify_final` on the stored `rb_bytes` and `alice_response`). -/
def reconcileTwoWaySuccess (D : List Nat → List Nat → List Nat) (key : List Nat)
    (s : Session) : Bool :=
  match s.alice_response, s.rb_bytes with
  | some ar, some rbb => (bob_verify_final D key rbb ar).success
  | _, _ => false

/-- The one-way reconciliation block of `SessionManager.run`: an unlogged
one-way session with truthy `alice_response` and `rb` is verified, its row
appended and `logged` set. -/
def reconcileOneWay (D : List Nat → List Nat → List Nat) (key : List Nat)
    (st : SMState) (sid : Nat) : SMState :=
  logIfStep st sid
    (fun s => !s.logged && (s.protocol_type == "one-way") &&
      optTruthy s.alice_response && optTruthy s.rb)
    (fun s =>
      { protocol_type := "one-way", session_id := sid, ra := none, rb := s.rb,
        alice_response := s.alice_response, bob_response := none,
        success := reconcileOneWaySuccess D key s,
        timestamp := s.timestamp, attack_flag := s.attack_flag,
        nonce_entropy := s.nonce_entropy, is_replay := s.is_replay,
        is_random_guess := s.is_random_guess })

/-- The two-way reconciliation block of `SessionManager.run`: an unlogged
two-way session with truthy `alice_response`, `bob_response` and `rb_bytes`
is verified, its row appended and `logged` set. -/
def reconcileTwoWay (D : List Nat → List Nat → List Nat) (key : List Nat)
    (st : SMState) (sid : Nat) : SMState :=
  logIfStep st sid
    (fun s => !s.logged && (s.protocol_type == "two-way") &&
      optTruthy s.alice_response && optTruthy s.bob_response && optTruthy s.rb_bytes)
    (fun s =>
      { protocol_type := "two-way", session_id := sid, ra := s.ra, rb := s.rb,
        alice_response := s.alice_response, bob_response := s.bob_response,
        success := reconcileTwoWaySuccess D key s,
        timestamp := s.timestamp, attack_flag := s.attack_flag,
        nonce_entropy := s.nonce_entropy, is_replay := s.is_replay,
        is_random_guess := s.is_random_guess })

/-- The best-effort reconciliation body of `SessionManager.run` for one
session id: the one-way block followed by the two-way block (the source
runs both `if` blocks in sequence on the same, possibly just updated,
session entry). -/
def reconcileEntry (D : List Nat → List Nat → List Nat) (key : List Nat)
    (st : SMState) (sid : Nat) : SMState :=
  reconcileTwoWay D key (reconcileOneWay D key st sid) sid

/-- The whole reconciliation pass of `SessionManager.run`: fold the
per-session body over the snapshot `list(self.session_state.items())`. -/
def reconcilePass (D : List Nat → List Nat → List Nat) (key : List Nat) (st : SMState) : SMState :=
  (st.session_state.map Prod.fst).foldl (reconcileEntry D key) st

/-- The transitions of the *sequential* execution model of the
orchestrator: session creation by the run loop, the callbacks that
`start_components` actually registers (`challenge_rb`, `init_ra`,
`bob_ra_rb` on Alice and Bob, and `response_rb` on Bob —
`_on_incoming_alice_final_at_bob` is never registered and contributes no
transition), and the final reconciliation pass, with nondeterministic
payloads and fresh nonces/IVs made explicit.  Each transition executes a
whole callback with its critical sections back to back; the program only
guarantees this when no other thread takes the session lock in between,
and the claim C7 analysis shows a schedulable interleaving of
`response_rb` with the reconciliation pass that this model excludes. -/
inductive SMStep where
  | create (sid : Nat) (proto : String) (ts : Nat) (aflag irep irg : Bool) (nonce : List Nat)
  | challengeRb (iv rbPayload : List Nat)
  | initRa (iv raPayload rbNew : List Nat)
  | bobRaRb (iv : List Nat) (raPayload c1Payload : Option (List Nat))
  | responseRb (respPayload : Option (List Nat))
  | reconcile
deriving DecidableEq, Repr

/-- Apply one transition of the sequential model to the orchestrator
state. -/
def applyStep (E D : List Nat → List Nat → List Nat) (key : List Nat) :
    SMStep → SMState → SMState
  | SMStep.create sid proto ts aflag irep irg nonce, st =>
    create_session sid proto ts aflag irep irg nonce st
  | SMStep.challengeRb iv rbPayload, st => alice_on_challenge_rb E key iv rbPayload st
  | SMStep.initRa iv raPayload rbNew, st => bob_on_init_ra E key iv raPayload rbNew st
  | SMStep.bobRaRb iv raPayload c1Payload, st => alice_on_bob_ra_rb E D key iv raPayload c1Payload st
  | SMStep.responseRb respPayload, st => on_incoming_response_rb_at_bob D key respPayload st
  | SMStep.reconcile, st => reconcilePass D key st

/-- A step is well-formed when a `create` uses a session id not yet in the
table; `SessionManager.run` creates the ids `0, …, num_sessions - 1`, each
exactly once. -/
def stepOk (st : SMState) : SMStep → Bool
  | SMStep.create sid _ _ _ _ _ _ => (lookupSession st.session_state sid).isNone
  | _ => true

/-- Well-formedness of a whole step sequence from a given state. -/
def wfFrom (E D : List Nat → List Nat → List Nat) (key : List Nat) :
    SMState → List SMStep → Bool
  | _, [] => true
  | st, s :: rest => stepOk st s && wfFrom E D key (applyStep E D key s st) rest

/-- Run a step sequence from a given state. -/
def runFrom (E D : List Nat → List Nat → List Nat) (key : List Nat)
    (st : SMState) (steps : List SMStep) : SMState :=
  steps.foldl (fun st s => applyStep E D key s st) st

/-- The initial orchestrator state: empty session table, no records. -/
def initSM : SMState := ⟨[], []⟩

/-- Concrete pre-race state for the claim C7 analysis: the run loop has
created one one-way session (id 0, nonce of sixteen `1` bytes) and Alice's
`challenge_rb` callback has completed, storing her encrypted response
(identity block maps, all-zero 32-byte key and 16-byte IV).  The session
is not yet logged. -/
def raceState : SMState :=
  alice_on_challenge_rb (fun _ b => b) (List.replicate 32 0) (List.replicate 16 0)
    (List.replicate 16 1)
    (create_session 0 "one-way" 11 false false false (List.replicate 16 1) initSM)

/-- Pointwise order on the four progress flags of a session: each flag may
only go from `False` to `True`. -/
def FlagsLe (a b : Session) : Prop :=
  (a.alice_responded = true → b.alice_responded = true) ∧
  (a.bob_responded = true → b.bob_responded = true) ∧
  (a.alice_final_sent = true → b.alice_final_sent = true) ∧
  (a.logged = true → b.logged = true)

/-- Number of output rows carrying a given session id. -/
def recCount (records : List SessionRecord) (sid : Nat) : Nat :=
  records.countP (fun r => r.session_id == sid)

/-- Contribution of a session to the logging budget: `1` once its `logged`
flag is set, `0` before (and for absent ids). -/
def loggedBit (t : List (Nat × Session)) (sid : Nat) : Nat :=
  match lookupSession t sid with
  | some s => if s.logged then 1 else 0
  | none => 0

/-- The session table has pairwise distinct keys (Python dict keys). -/
def tableKeysNodup (st : SMState) : Prop :=
  (st.session_state.map Prod.fst).Nodup

/-- Relation between two session tables: every session still exists and its
progress flags may only have moved forward. -/
def MonoTable (t t' : List (Nat × Session)) : Prop :=
  ∀ sid a, lookupSession t sid = some a →
    ∃ b, lookupSession t' sid = some b ∧ FlagsLe a b

/-- Relation between two orchestrator states: for every session id the
number of output rows grows by one exactly when that session's `logged`
flag flips from unset to set, and is unchanged otherwise. -/
def LogStep (st st' : SMState) : Prop :=
  ∀ sid, recCount st'.records sid
    = recCount st.records sid +
      (if loggedBit st.session_state sid = 0 ∧ loggedBit st'.session_state sid = 1 then 1 else 0)

/-! Helper lemmas about the CBC/PKCS7 embedding. -/

theorem xorBytes_length (a b : List Nat) : (xorBytes a b).length = min a.length b.length := by
  simp [xorBytes]

theorem xorBytes_cancel (a : List Nat) : ∀ b : List Nat, a.length = b.length →
    xorBytes a (xorBytes a b) = b := by
  induction a with
  | nil =>
    intro b hb
    cases b with
    | nil => rfl
    | cons y ys => simp at hb
  | cons x xs ih =>
    intro b hb
    cases b with
    | nil => simp at hb
    | cons y ys =>
      simp only [xorBytes, List.zipWith_cons_cons]
      have h2 := ih ys (by simpa using hb)
      simp only [xorBytes] at h2
      have hx : Nat.xor x (Nat.xor x y) = y := Nat.xor_cancel_left x y
      rw [hx, h2]

theorem toBlocksAux_nil (fuel : Nat) : toBlocksAux fuel [] = [] := by
  cases fuel <;> simp [toBlocksAux]

theorem toBlocksAux_congr (f1 : Nat) : ∀ (f2 : Nat) (l : List Nat), l.length ≤ f1 →
    l.length ≤ f2 → toBlocksAux f1 l = toBlocksAux f2 l := by
  induction f1 with
  | zero =>
    intro f2 l h1 _
    have hl : l = [] := List.length_eq_zero.mp (Nat.le_zero.mp h1)
    subst hl
    rw [toBlocksAux_nil, toBlocksAux_nil]
  | succ n ih =>
    intro f2 l h1 h2
    cases f2 with
    | zero =>
      have hl : l = [] := List.length_eq_zero.mp (Nat.le_zero.mp h2)
      subst hl
      rw [toBlocksAux_nil, toBlocksAux_nil]
    | succ m =>
      by_cases hl : l = []
      · subst hl
        rw [toBlocksAux_nil, toBlocksAux_nil]
      · have hpos : 0 < l.length := List.length_pos.mpr hl
        simp only [toBlocksAux, if_neg hl]
        congr 1
        apply ih
        · rw [List.length_drop]
          simp only [blockSize] at *
          omega
        · rw [List.length_drop]
          simp only [blockSize] at *
          omega

theorem toBlocks_nil : toBlocks [] = [] := rfl

theorem toBlocks_eq_cons (l : List Nat) (h : l ≠ []) :
    toBlocks l = l.take blockSize :: toBlocks (l.drop blockSize) := by
  have hpos : 0 < l.length := List.length_pos.mpr h
  obtain ⟨n, hn⟩ : ∃ n, l.length = n + 1 := ⟨l.length - 1, by omega⟩
  unfold toBlocks
  rw [hn]
  simp only [toBlocksAux, if_neg h]
  congr 1
  apply toBlocksAux_congr
  · simp only [List.length_drop, blockSize]
    omega
  · exact le_rfl

theorem toBlocks_block_length (n : Nat) : ∀ l : List Nat, l.length ≤ n →
    l.length % blockSize = 0 → ∀ b ∈ toBlocks l, b.length = blockSize := by
  induction n with
  | zero =>
    intro l hle _ b hb
    have hl : l = [] := List.length_eq_zero.mp (Nat.le_zero.mp hle)
    subst hl
    simp [toBlocks_nil] at hb
  | succ n ih =>
    intro l hle hmod b hb
    by_cases hl : l = []
    · subst hl
      simp [toBlocks_nil] at hb
    · have hpos : 0 < l.length := List.length_pos.mpr hl
      have h16 : blockSize ≤ l.length := by
        simp only [blockSize] at *
        omega
      rw [toBlocks_eq_cons l hl] at hb
      rcases List.mem_cons.mp hb with hb | hb
      · subst hb
        simp only [List.length_take]
        omega
      · refine ih (l.drop blockSize) ?_ ?_ b hb
        · simp only [List.length_drop, blockSize] at *
          omega
        · simp only [List.length_drop, blockSize] at *
          omega

theorem flatten_toBlocks (n : Nat) : ∀ l : List Nat, l.length ≤ n →
    (toBlocks l).flatten = l := by
  induction n with
  | zero =>
    intro l hle
    have hl : l = [] := List.length_eq_zero.mp (Nat.le_zero.mp hle)
    subst hl
    rfl
  | succ n ih =>
    intro l hle
    by_cases hl : l = []
    · subst hl
      rfl
    · have hpos : 0 < l.length := List.length_pos.mpr hl
      rw [toBlocks_eq_cons l hl, List.flatten_cons,
        ih (l.drop blockSize) (by rw [List.length_drop]; simp only [blockSize]; omega),
        List.take_append_drop]

theorem toBlocks_flatten_blocks : ∀ bs : List (List Nat),
    (∀ b ∈ bs, b.length = blockSize) → toBlocks bs.flatten = bs := by
  intro bs
  induction bs with
  | nil => intro _; rfl
  | cons b bs ih =>
    intro h
    have hb : b.length = blockSize := h b (List.mem_cons_self _ _)
    have hnil : b ++ bs.flatten ≠ [] := by
      intro hc
      have : b = [] := (List.append_eq_nil.mp hc).1
      rw [this] at hb
      simp [blockSize] at hb
    rw [List.flatten_cons, toBlocks_eq_cons _ hnil, List.take_left' hb, List.drop_left' hb,
      ih (fun x hx => h x (List.mem_cons_of_mem _ hx))]

theorem flatten_length_blocks : ∀ bs : List (List Nat),
    (∀ b ∈ bs, b.length = blockSize) → bs.flatten.length = blockSize * bs.length := by
  intro bs
  induction bs with
  | nil => intro _; rfl
  | cons b bs ih =>
    intro h
    rw [List.flatten_cons, List.length_append, h b (List.mem_cons_self _ _),
      ih (fun x hx => h x (List.mem_cons_of_mem _ hx)), List.length_cons]
    ring

theorem toBlocks_count (n : Nat) : ∀ l : List Nat, l.length ≤ n →
    l.length % blockSize = 0 → (toBlocks l).length = l.length / blockSize := by
  induction n with
  | zero =>
    intro l hle _
    have hl : l = [] := List.length_eq_zero.mp (Nat.le_zero.mp hle)
    subst hl
    rfl
  | succ n ih =>
    intro l hle hmod
    by_cases hl : l = []
    · subst hl
      rfl
    · have hpos : 0 < l.length := List.length_pos.mpr hl
      have h16 : blockSize ≤ l.length := by
        simp only [blockSize] at *
        omega
      rw [toBlocks_eq_cons l hl, List.length_cons,
        ih (l.drop blockSize) (by rw [List.length_drop]; simp only [blockSize] at *; omega)
          (by rw [List.length_drop]; simp only [blockSize] at *; omega)]
      simp only [List.length_drop, blockSize] at *
      omega

theorem cbcEncryptBlocks_count (E : List Nat → List Nat) :
    ∀ (bs : List (List Nat)) (prev : List Nat),
      (cbcEncryptBlocks E prev bs).length = bs.length := by
  intro bs
  induction bs with
  | nil => intro prev; rfl
  | cons b bs ih =>
    intro prev
    simp only [cbcEncryptBlocks, List.length_cons, ih]

theorem cbcEncryptBlocks_block_length (E : List Nat → List Nat)
    (hE : ∀ x, x.length = blockSize → (E x).length = blockSize) :
    ∀ (bs : List (List Nat)) (prev : List Nat), prev.length = blockSize →
      (∀ b ∈ bs, b.length = blockSize) →
      ∀ c ∈ cbcEncryptBlocks E prev bs, c.length = blockSize := by
  intro bs
  induction bs with
  | nil =>
    intro prev _ _ c hc
    simp [cbcEncryptBlocks] at hc
  | cons b bs ih =>
    intro prev hprev hall c hc
    have hb := hall b (List.mem_cons_self _ _)
    have hxor : (xorBytes prev b).length = blockSize := by
      rw [xorBytes_length, hprev, hb, Nat.min_self]
    have hc1 : (E (xorBytes prev b)).length = blockSize := hE _ hxor
    simp only [cbcEncryptBlocks] at hc
    rcases List.mem_cons.mp hc with hc | hc
    · rw [hc]
      exact hc1
    · exact ih (E (xorBytes prev b)) hc1 (fun x hx => hall x (List.mem_cons_of_mem _ hx)) c hc

theorem cbcDecrypt_cbcEncrypt (E D : List Nat → List Nat)
    (hDE : ∀ x, x.length = blockSize → D (E x) = x)
    (hE : ∀ x, x.length = blockSize → (E x).length = blockSize) :
    ∀ (bs : List (List Nat)) (prev : List Nat), prev.length = blockSize →
      (∀ b ∈ bs, b.length = blockSize) →
      cbcDecryptBlocks D prev (cbcEncryptBlocks E prev bs) = bs := by
  intro bs
  induction bs with
  | nil => intro prev _ _; rfl
  | cons b bs ih =>
    intro prev hprev hall
    have hb := hall b (List.mem_cons_self _ _)
    have hxor : (xorBytes prev b).length = blockSize := by
      rw [xorBytes_length, hprev, hb, Nat.min_self]
    simp only [cbcEncryptBlocks, cbcDecryptBlocks]
    rw [hDE _ hxor, xorBytes_cancel prev b (by rw [hprev, hb]),
      ih (E (xorBytes prev b)) (hE _ hxor) (fun x hx => hall x (List.mem_cons_of_mem _ hx))]

theorem pkcs7pad_length (data : List Nat) :
    (pkcs7pad data).length = data.length + (blockSize - data.length % blockSize) := by
  simp [pkcs7pad]

theorem pkcs7pad_length_mod (data : List Nat) : (pkcs7pad data).length % blockSize = 0 := by
  rw [pkcs7pad_length]
  simp only [blockSize]
  omega

theorem pkcs7unpad_pkcs7pad (data : List Nat) : pkcs7unpad (pkcs7pad data) = Except.ok data := by
  have hp1 : 1 ≤ blockSize - data.length % blockSize := by
    simp only [blockSize]
    omega
  have hlen := pkcs7pad_length data
  have hmod := pkcs7pad_length_mod data
  have hrep : List.replicate (blockSize - data.length % blockSize)
      (blockSize - data.length % blockSize) ≠ ([] : List Nat) := by
    simp only [ne_eq, List.replicate_eq_nil_iff]
    omega
  have hgl : (pkcs7pad data).getLastD 0 = blockSize - data.length % blockSize := by
    rw [List.getLastD_eq_getLast?, pkcs7pad, List.getLast?_append_of_ne_nil _ hrep,
      List.getLast?_replicate]
    rw [if_neg (by omega)]
    rfl
  have hne : ¬((pkcs7pad data).length % blockSize ≠ 0 ∨ (pkcs7pad data).length = 0) := by
    rw [hlen]
    rw [hlen] at hmod
    simp only [blockSize] at *
    omega
  have hsub : (pkcs7pad data).length - (blockSize - data.length % blockSize) = data.length := by
    rw [hlen]
    omega
  have hcond : 1 ≤ (pkcs7pad data).getLastD 0 ∧ (pkcs7pad data).getLastD 0 ≤ blockSize ∧
      ∀ b ∈ (pkcs7pad data).drop ((pkcs7pad data).length - (pkcs7pad data).getLastD 0),
        b = (pkcs7pad data).getLastD 0 := by
    rw [hgl, hsub]
    refine ⟨hp1, by simp only [blockSize]; omega, ?_⟩
    intro b hb
    rw [pkcs7pad, List.drop_left' rfl] at hb
    exact List.eq_of_mem_replicate hb
  unfold pkcs7unpad
  rw [if_neg hne, if_pos hcond, hgl, hsub, pkcs7pad, List.take_left' rfl]

/-- C1: for every AES-valid key (16, 24 or 32 bytes) — the AES block maps
`E key`/`D key` being mutually inverse length-preserving maps on 16-byte
blocks — every plaintext byte string, and every choice of the fresh 16-byte
IV generated inside `encrypt_message`,
`decrypt_message(key, encrypt_message(key, plaintext))` returns exactly the
original plaintext. -/
theorem encrypt_decrypt_roundtrip
    (E D : List Nat → List Nat → List Nat) (key : List Nat)
    (hkey : key.length = 16 ∨ key.length = 24 ∨ key.length = 32)
    (hDE : ∀ x, x.length = blockSize → D key (E key x) = x)
    (hE : ∀ x, x.length = blockSize → (E key x).length = blockSize)
    (iv plaintext : List Nat) (hiv : iv.length = blockSize) :
    decrypt_message D key (encrypt_message E key iv plaintext) = Except.ok plaintext := by
  have hblocks : ∀ b ∈ toBlocks (pkcs7pad plaintext), b.length = blockSize :=
    toBlocks_block_length (pkcs7pad plaintext).length _ le_rfl (pkcs7pad_length_mod _)
  have hcblocks : ∀ c ∈ cbcEncryptBlocks (E key) iv (toBlocks (pkcs7pad plaintext)),
      c.length = blockSize :=
    cbcEncryptBlocks_block_length (E key) hE _ iv hiv hblocks
  have hctlen : (cbcEncryptBlocks (E key) iv (toBlocks (pkcs7pad plaintext))).flatten.length
      = blockSize * (cbcEncryptBlocks (E key) iv (toBlocks (pkcs7pad plaintext))).length :=
    flatten_length_blocks _ hcblocks
  have htake : (encrypt_message E key iv plaintext).take blockSize = iv := by
    unfold encrypt_message
    exact List.take_left' hiv
  have hdrop : (encrypt_message E key iv plaintext).drop blockSize
      = (cbcEncryptBlocks (E key) iv (toBlocks (pkcs7pad plaintext))).flatten := by
    unfold encrypt_message
    exact List.drop_left' hiv
  unfold decrypt_message
  rw [htake, hdrop, hiv]
  rw [if_neg (by simp), if_neg (by rw [hctlen]; simp [Nat.mul_mod_right]),
    toBlocks_flatten_blocks _ hcblocks,
    cbcDecrypt_cbcEncrypt (E key) (D key) hDE hE _ iv hiv hblocks,
    flatten_toBlocks (pkcs7pad plaintext).length _ le_rfl]
  exact pkcs7unpad_pkcs7pad plaintext

/-- C1 witness: the round trip evaluated on a concrete key, IV and
plaintext, with the identity map standing in for the AES block permutation. -/
theorem encrypt_decrypt_roundtrip_witness :
    decrypt_message (fun _ b => b) (List.replicate 32 0)
        (encrypt_message (fun _ b => b) (List.replicate 32 0) (List.replicate 16 0) [1, 2, 3])
      = Except.ok [1, 2, 3] :=
  encrypt_decrypt_roundtrip (fun _ b => b) (fun _ b => b) (List.replicate 32 0)
    (Or.inr (Or.inr (by decide))) (fun _ _ => rfl) (fun _ h => h)
    (List.replicate 16 0) [1, 2, 3] (by decide)

/-- C6: a ciphertext blob strictly shorter than one IV length (16 bytes)
makes `decrypt_message` fail with a decryption error (the library refuses
the short IV slice), and every protocol verification function converts that
failure into a `success=False`, `decryption_failed`-tagged result instead of
letting an exception escape the decrypt boundary. -/
theorem decrypt_short_blob
    (E D : List Nat → List Nat → List Nat) (key iv blob ra rb : List Nat)
    (hshort : blob.length < blockSize) :
    decrypt_message D key blob = Except.error "Invalid IV size" ∧
    bob_verify_response D key rb blob
      = ⟨none, false, some ("decryption_failed: " ++ "Invalid IV size")⟩ ∧
    alice_finalize E D key iv blob ra
      = ⟨none, false, some ("decryption_failed: " ++ "Invalid IV size")⟩ ∧
    bob_verify_final D key rb blob
      = ⟨none, false, some ("decryption_failed: " ++ "Invalid IV size")⟩ := by
  have hc : (blob.take blockSize).length ≠ blockSize := by
    rw [List.length_take]
    omega
  have hdec : decrypt_message D key blob = Except.error "Invalid IV size" := by
    unfold decrypt_message
    rw [if_pos hc]
  refine ⟨hdec, ?_, ?_, ?_⟩ <;>
    simp [bob_verify_response, alice_finalize, bob_verify_final, hdec]

/-- C6 witness: a 3-byte blob evaluated through the decrypt boundary. -/
theorem decrypt_short_blob_witness :
    decrypt_message (fun _ b => b) (List.replicate 32 0) [1, 2, 3]
        = Except.error "Invalid IV size" ∧
    bob_verify_response (fun _ b => b) (List.replicate 32 0) [7] [1, 2, 3]
        = ⟨none, false, some ("decryption_failed: " ++ "Invalid IV size")⟩ ∧
    alice_finalize (fun _ b => b) (fun _ b => b) (List.replicate 32 0) (List.replicate 16 0) [1, 2, 3] [7]
        = ⟨none, false, some ("decryption_failed: " ++ "Invalid IV size")⟩ ∧
    bob_verify_final (fun _ b => b) (List.replicate 32 0) [7] [1, 2, 3]
        = ⟨none, false, some ("decryption_failed: " ++ "Invalid IV size")⟩ :=
  decrypt_short_blob (fun _ b => b) (fun _ b => b) (List.replicate 32 0)
    (List.replicate 16 0) [1, 2, 3] [7] [7] (by decide)

/-- C10: for every AES-valid key and plaintext of length `n`, the output of
`encrypt_message` has length exactly `16 + 16 * (n / 16 + 1)` — a 16-byte IV
followed by the PKCS7-padded CBC ciphertext — hence is a multiple of 16, at
least 32, and strictly greater than `n`. -/
theorem encrypt_message_length
    (E : List Nat → List Nat → List Nat) (key : List Nat)
    (hkey : key.length = 16 ∨ key.length = 24 ∨ key.length = 32)
    (hE : ∀ x, x.length = blockSize → (E key x).length = blockSize)
    (iv plaintext : List Nat) (hiv : iv.length = blockSize) :
    (encrypt_message E key iv plaintext).length
        = 16 + 16 * (plaintext.length / 16 + 1) ∧
    (encrypt_message E key iv plaintext).length % 16 = 0 ∧
    32 ≤ (encrypt_message E key iv plaintext).length ∧
    plaintext.length < (encrypt_message E key iv plaintext).length := by
  have hblocks : ∀ b ∈ toBlocks (pkcs7pad plaintext), b.length = blockSize :=
    toBlocks_block_length (pkcs7pad plaintext).length _ le_rfl (pkcs7pad_length_mod _)
  have hcblocks : ∀ c ∈ cbcEncryptBlocks (E key) iv (toBlocks (pkcs7pad plaintext)),
      c.length = blockSize :=
    cbcEncryptBlocks_block_length (E key) hE _ iv hiv hblocks
  have hlen : (encrypt_message E key iv plaintext).length
      = blockSize + blockSize * (toBlocks (pkcs7pad plaintext)).length := by
    unfold encrypt_message
    rw [List.length_append, hiv, flatten_length_blocks _ hcblocks, cbcEncryptBlocks_count]
  have hcount : (toBlocks (pkcs7pad plaintext)).length = (pkcs7pad plaintext).length / blockSize :=
    toBlocks_count (pkcs7pad plaintext).length _ le_rfl (pkcs7pad_length_mod _)
  have hpadlen := pkcs7pad_length plaintext
  rw [hlen, hcount, hpadlen]
  simp only [blockSize]
  refine ⟨by omega, by omega, by omega, by omega⟩

/-- C10 witness: the length formula evaluated on a 3-byte plaintext. -/
theorem encrypt_message_length_witness :
    (encrypt_message (fun _ b => b) (List.replicate 32 0) (List.replicate 16 0) [9, 9, 9]).length
        = 16 + 16 * (([9, 9, 9] : List Nat).length / 16 + 1) ∧
    (encrypt_message (fun _ b => b) (List.replicate 32 0) (List.replicate 16 0) [9, 9, 9]).length % 16 = 0 ∧
    32 ≤ (encrypt_message (fun _ b => b) (List.replicate 32 0) (List.replicate 16 0) [9, 9, 9]).length ∧
    ([9, 9, 9] : List Nat).length
        < (encrypt_message (fun _ b => b) (List.replicate 32 0) (List.replicate 16 0) [9, 9, 9]).length :=
  encrypt_message_length (fun _ b => b) (List.replicate 32 0)
    (Or.inr (Or.inr (by decide))) (fun _ h => h) (List.replicate 16 0) [9, 9, 9] (by decide)

/-- C2: whenever `alice_finalize` decrypts `c1` successfully, a plaintext
whose first `len(ra_expected)` bytes differ from `ra_expected` yields
`success=False`, `error="ra_mismatch"` and `c2=None`; a matching prefix
yields `success=True` with `c2 = encrypt_message(key, rb)` where `rb` is
the remainder of the plaintext. -/
theorem alice_finalize_spec
    (E D : List Nat → List Nat → List Nat) (key iv c1 ra_expected plaintext : List Nat)
    (hdec : decrypt_message D key c1 = Except.ok plaintext) :
    (plaintext.take ra_expected.length ≠ ra_expected →
      alice_finalize E D key iv c1 ra_expected = ⟨none, false, some "ra_mismatch"⟩) ∧
    (plaintext.take ra_expected.length = ra_expected →
      alice_finalize E D key iv c1 ra_expected
        = ⟨some (encrypt_message E key iv (plaintext.drop ra_expected.length)), true, none⟩) := by
  constructor <;> intro h <;> simp [alice_finalize, hdec, h]

/-- C2 witness: both branches evaluated on a concrete two-way exchange with
the identity map standing in for the AES block permutation. -/
theorem alice_finalize_spec_witness :
    alice_finalize (fun _ b => b) (fun _ b => b) (List.replicate 32 0) (List.replicate 16 0)
        (encrypt_message (fun _ b => b) (List.replicate 32 0) (List.replicate 16 0) [1, 2, 3, 4, 5, 6])
        [9, 9, 9, 9]
      = ⟨none, false, some "ra_mismatch"⟩ ∧
    alice_finalize (fun _ b => b) (fun _ b => b) (List.replicate 32 0) (List.replicate 16 0)
        (encrypt_message (fun _ b => b) (List.replicate 32 0) (List.replicate 16 0) [1, 2, 3, 4, 5, 6])
        [1, 2, 3, 4]
      = ⟨some (encrypt_message (fun _ b => b) (List.replicate 32 0) (List.replicate 16 0)
          (([1, 2, 3, 4, 5, 6] : List Nat).drop 4)), true, none⟩ :=
  ⟨(alice_finalize_spec (fun _ b => b) (fun _ b => b) (List.replicate 32 0) (List.replicate 16 0)
      (encrypt_message (fun _ b => b) (List.replicate 32 0) (List.replicate 16 0) [1, 2, 3, 4, 5, 6])
      [9, 9, 9, 9] [1, 2, 3, 4, 5, 6] rfl).1 (by decide),
    (alice_finalize_spec (fun _ b => b) (fun _ b => b) (List.replicate 32 0) (List.replicate 16 0)
      (encrypt_message (fun _ b => b) (List.replicate 32 0) (List.replicate 16 0) [1, 2, 3, 4, 5, 6])
      [1, 2, 3, 4] [1, 2, 3, 4, 5, 6] rfl).2 (by decide)⟩

/-- C3: the protocol verification functions `bob_verify_response`,
`alice_finalize` and `bob_verify_final` never let a decryption exception
escape: whenever the inner `decrypt_message` fails with cause `e`, each of
them returns `success=False` with the error string
`"decryption_failed: " ++ e` (the functions are total by construction in
this embedding, matching the blanket `except` in the source). -/
theorem protocol_decryption_error_handling
    (E D : List Nat → List Nat → List Nat) (key iv rb c ra : List Nat) (e : String)
    (hdec : decrypt_message D key c = Except.error e) :
    bob_verify_response D key rb c = ⟨none, false, some ("decryption_failed: " ++ e)⟩ ∧
    alice_finalize E D key iv c ra = ⟨none, false, some ("decryption_failed: " ++ e)⟩ ∧
    bob_verify_final D key rb c = ⟨none, false, some ("decryption_failed: " ++ e)⟩ := by
  refine ⟨?_, ?_, ?_⟩ <;> simp [bob_verify_response, alice_finalize, bob_verify_final, hdec]

/-- C3 witness: the conversion evaluated on an empty ciphertext blob. -/
theorem protocol_decryption_error_handling_witness :
    bob_verify_response (fun _ b => b) (List.replicate 32 0) [7] []
      = ⟨none, false, some ("decryption_failed: " ++ "Invalid IV size")⟩ ∧
    alice_finalize (fun _ b => b) (fun _ b => b) (List.replicate 32 0) (List.replicate 16 0) [] [7]
      = ⟨none, false, some ("decryption_failed: " ++ "Invalid IV size")⟩ ∧
    bob_verify_final (fun _ b => b) (List.replicate 32 0) [7] []
      = ⟨none, false, some ("decryption_failed: " ++ "Invalid IV size")⟩ :=
  protocol_decryption_error_handling (fun _ b => b) (fun _ b => b) (List.replicate 32 0)
    (List.replicate 16 0) [7] [] [7] "Invalid IV size" rfl

/-- C4 counterexample: `recv_msg` does not give the three outcomes distinct
results — a timeout on a well-formed stream, a clean connection close and a
malformed-JSON frame all return `None`. -/
theorem recv_msg_outcomes_not_distinct :
    recv_msg (fun _ => some []) true [0, 0, 0, 0] = recv_msg (fun _ => some []) false [] ∧
    recv_msg (fun _ => none) false [0, 0, 0, 1, 65] = recv_msg (fun _ => some []) true [0, 0, 0, 0] := by
  constructor <;> rfl

/-- C4 amended: `recv_msg` distinguishes only success from failure — it
returns the parsed (and hex re-decoded) envelope exactly when the read does
not time out, a full 4-byte length prefix and a full body are available and
the body parses as a JSON object; a timeout, a clean close, a partial
length prefix, a truncated body and malformed JSON all yield the single
undifferentiated result `None`. -/
theorem recv_msg_success_or_none
    (parseJson : List Nat → Option (List (String × JVal))) (stream : List Nat) :
    recv_msg parseJson true stream = none ∧
    (stream.length < 4 → recv_msg parseJson false stream = none) ∧
    (((stream.drop 4).take (beNat (stream.take 4))).length < beNat (stream.take 4) →
      recv_msg parseJson false stream = none) ∧
    (parseJson ((stream.drop 4).take (beNat (stream.take 4))) = none →
      recv_msg parseJson false stream = none) ∧
    (∀ obj, 4 ≤ stream.length →
      beNat (stream.take 4) ≤ ((stream.drop 4).take (beNat (stream.take 4))).length →
      parseJson ((stream.drop 4).take (beNat (stream.take 4))) = some obj →
      recv_msg parseJson false stream = some (post_recv obj)) := by
  refine ⟨rfl, ?_, ?_, ?_, ?_⟩
  · intro h
    unfold recv_msg
    rw [if_neg (by simp), if_pos (by rw [List.length_take]; omega)]
  · intro h
    unfold recv_msg
    rw [if_neg (by simp)]
    by_cases h4 : (stream.take 4).length < 4
    · rw [if_pos h4]
    · rw [if_neg h4, if_pos h]
  · intro h
    unfold recv_msg
    rw [if_neg (by simp)]
    by_cases h4 : (stream.take 4).length < 4
    · rw [if_pos h4]
    · rw [if_neg h4]
      by_cases hbody : ((stream.drop 4).take (beNat (stream.take 4))).length < beNat (stream.take 4)
      · rw [if_pos hbody]
      · rw [if_neg hbody, h]
  · intro obj hlen hbody hparse
    unfold recv_msg
    rw [if_neg (by simp), if_neg (by rw [List.length_take]; omega), if_neg (by omega), hparse]

/-- C4 witness of the amended claim: a complete one-byte frame parsed into
an envelope. -/
theorem recv_msg_success_or_none_witness :
    recv_msg (fun _ => some [("type", JVal.jnull)]) false [0, 0, 0, 1, 65]
      = some (post_recv [("type", JVal.jnull)]) :=
  (recv_msg_success_or_none (fun _ => some [("type", JVal.jnull)]) [0, 0, 0, 1, 65]).2.2.2.2
    [("type", JVal.jnull)] (by decide) (by decide) rfl

/-- Helper: on the sixteen characters of the hex alphabet, `hexDigitVal` is
bounded by 15 and is inverted by `hexCharOfNat`. -/
theorem hexDigitVal_inv (c : Char) (hc : isHexDigitChar c = true) :
    hexDigitVal c < 16 ∧ hexCharOfNat (hexDigitVal c) = c := by
  have hm : c ∈ hexAlphabet := by
    simpa [isHexDigitChar] using hc
  fin_cases hm <;> exact ⟨by decide, by decide⟩

/-- Helper: on an all-hex string, `bytes.fromhex` succeeds exactly on even
lengths, and the produced bytes re-encode to the original string. -/
theorem bytesFromHex_spec : ∀ s : List Char, s.all isHexDigitChar = true →
    (s.length % 2 = 0 → ∃ bs, bytesFromHex s = some bs ∧ bytesToHex bs = s) ∧
    (s.length % 2 = 1 → bytesFromHex s = none)
  | [] => by
    intro _
    exact ⟨fun _ => ⟨[], rfl, rfl⟩, fun h => by simp at h⟩
  | [c] => by
    intro _
    refine ⟨fun h => by simp at h, fun _ => rfl⟩
  | c1 :: c2 :: rest => by
    intro hall
    have h1 : isHexDigitChar c1 = true := by
      simp [List.all_cons] at hall
      exact hall.1
    have h2 : isHexDigitChar c2 = true := by
      simp [List.all_cons] at hall
      exact hall.2.1
    have hrest : rest.all isHexDigitChar = true := by
      simp [List.all_cons] at hall
      exact List.all_eq_true.mpr fun x hx => hall.2.2 x hx
    obtain ⟨hv1, hc1⟩ := hexDigitVal_inv c1 h1
    obtain ⟨hv2, hc2⟩ := hexDigitVal_inv c2 h2
    have ih := bytesFromHex_spec rest hrest
    constructor
    · intro heven
      have hrest_even : rest.length % 2 = 0 := by
        simp only [List.length_cons] at heven
        omega
      obtain ⟨bs, hbs, hhex⟩ := ih.1 hrest_even
      refine ⟨(16 * hexDigitVal c1 + hexDigitVal c2) :: bs, ?_, ?_⟩
      · simp [bytesFromHex, h1, h2, hbs]
      · have hdiv : (16 * hexDigitVal c1 + hexDigitVal c2) / 16 = hexDigitVal c1 := by omega
        have hmod : (16 * hexDigitVal c1 + hexDigitVal c2) % 16 = hexDigitVal c2 := by omega
        have hunf : bytesToHex ((16 * hexDigitVal c1 + hexDigitVal c2) :: bs)
            = hexCharOfNat ((16 * hexDigitVal c1 + hexDigitVal c2) / 16) ::
              hexCharOfNat ((16 * hexDigitVal c1 + hexDigitVal c2) % 16) :: bytesToHex bs := by
          simp [bytesToHex]
        rw [hunf, hdiv, hmod, hc1, hc2, hhex]
    · intro hodd
      have hrest_odd : rest.length % 2 = 1 := by
        simp only [List.length_cons] at hodd
        omega
      simp [bytesFromHex, h1, h2, ih.2 hrest_odd]

/-- C5 counterexample: the string `"abc"` consists solely of hex digits,
yet `_post_recv` leaves it unchanged — `bytes.fromhex` raises on the odd
length and the exception is swallowed — so it is not converted to raw
bytes as the claim requires. -/
theorem post_recv_odd_hex_unconverted :
    (['a', 'b', 'c'].all isHexDigitChar = true) ∧
    post_recv [("v", JVal.jstr ['a', 'b', 'c'])] = [("v", JVal.jstr ['a', 'b', 'c'])] ∧
    ∀ bs : List Nat, JVal.jstr ['a', 'b', 'c'] ≠ JVal.jbytes bs :=
  ⟨by decide, rfl, fun _ h => JVal.noConfusion h⟩

/-- C5 amended: `_post_recv` converts a top-level string value to the byte
string it denotes exactly when the string consists solely of lowercase hex
digits *and has even length*; all-hex strings of odd length and every other
top-level value are left unchanged. -/
theorem post_recv_hex_heuristic :
    (∀ s : List Char, s.all isHexDigitChar = true → s.length % 2 = 0 →
      ∃ bs, bytesFromHex s = some bs ∧ postRecvVal (JVal.jstr s) = JVal.jbytes bs ∧
        bytesToHex bs = s) ∧
    (∀ s : List Char, s.all isHexDigitChar = true → s.length % 2 = 1 →
      postRecvVal (JVal.jstr s) = JVal.jstr s) ∧
    (∀ s : List Char, s.all isHexDigitChar = false → postRecvVal (JVal.jstr s) = JVal.jstr s) ∧
    (∀ v : JVal, (∀ s, v ≠ JVal.jstr s) → postRecvVal v = v) ∧
    (∀ obj : List (String × JVal), post_recv obj = obj.map (fun kv => (kv.1, postRecvVal kv.2))) := by
  refine ⟨?_, ?_, ?_, ?_, fun _ => rfl⟩
  · intro s hall heven
    obtain ⟨bs, hbs, hhex⟩ := (bytesFromHex_spec s hall).1 heven
    exact ⟨bs, hbs, by simp [postRecvVal, hall, hbs], hhex⟩
  · intro s hall hodd
    simp [postRecvVal, hall, (bytesFromHex_spec s hall).2 hodd]
  · intro s hall
    simp [postRecvVal, hall]
  · intro v hv
    cases v with
    | jstr s => exact absurd rfl (hv s)
    | jbytes b => rfl
    | jnum n => rfl
    | jbool b => rfl
    | jnull => rfl

/-- C5 witness of the amended claim: the even-length hex string `"0aff"` is
converted to the bytes `[10, 255]` it denotes. -/
theorem post_recv_hex_heuristic_witness :
    ∃ bs, bytesFromHex ['0', 'a', 'f', 'f'] = some bs ∧
      postRecvVal (JVal.jstr ['0', 'a', 'f', 'f']) = JVal.jbytes bs ∧
      bytesToHex bs = ['0', 'a', 'f', 'f'] :=
  post_recv_hex_heuristic.1 ['0', 'a', 'f', 'f'] (by decide) (by decide)

/-- C9: `shannon_entropy` of the empty byte string is `0.0`; on a byte
string containing each of the 256 distinct byte values exactly once it is
`8.0` bits; and it is invariant under any permutation of the input bytes. -/
theorem shannon_entropy_spec :
    shannon_entropy [] = 0 ∧
    (∀ data : List Nat, (∀ b ∈ data, b < 256) → (∀ b < 256, data.count b = 1) →
      shannon_entropy data = 8) ∧
    (∀ l l' : List Nat, l.Perm l' → shannon_entropy l = shannon_entropy l') := by
  refine ⟨by simp [shannon_entropy], ?_, ?_⟩
  · intro data hmem hcount
    have h0 : (0 : Nat) ∈ data := by
      have := hcount 0 (by norm_num)
      exact List.count_pos_iff.mp (by omega)
    have hnil : data ≠ [] := by
      intro h
      rw [h] at h0
      simp at h0
    have hfs : data.toFinset = Finset.range 256 := by
      ext b
      simp only [List.mem_toFinset, Finset.mem_range]
      constructor
      · exact hmem b
      · intro hb
        have := hcount b hb
        exact List.count_pos_iff.mp (by omega)
    have hsum : ∑ b ∈ data.toFinset, data.count b = data.length := by
      have h := Multiset.toFinset_sum_count_eq (data : Multiset Nat)
      simp only [List.toFinset_coe, Multiset.coe_count, Multiset.coe_card] at h
      exact h
    have hlen : data.length = 256 := by
      rw [← hsum, hfs, Finset.sum_congr rfl (fun b hb => hcount b (Finset.mem_range.mp hb))]
      simp
    have hterm : ∀ b ∈ Finset.range 256,
        ((data.count b : ℝ) / (data.length : ℝ)) *
            Real.logb 2 ((data.count b : ℝ) / (data.length : ℝ))
          = (1 / 256 : ℝ) * Real.logb 2 (1 / 256 : ℝ) := by
      intro b hb
      rw [hcount b (Finset.mem_range.mp hb), hlen]
      norm_num
    have hlog2 : Real.log 2 ≠ 0 := ne_of_gt (Real.log_pos (by norm_num))
    have hlogb : Real.logb 2 (1 / 256 : ℝ) = -8 := by
      rw [one_div, Real.logb_inv]
      have h256 : (256 : ℝ) = 2 ^ (8 : ℕ) := by norm_num
      rw [h256, Real.logb, Real.log_pow]
      field_simp
    rw [shannon_entropy, if_neg hnil, hfs, Finset.sum_congr rfl hterm, Finset.sum_const,
      Finset.card_range, hlogb]
    norm_num
  · intro l l' hp
    by_cases hnil : l = []
    · subst hnil
      rw [← hp.nil_eq]
    · have hnil' : l' ≠ [] := by
        intro h
        subst h
        exact hnil hp.eq_nil
      have hfs : l.toFinset = l'.toFinset := by
        ext x
        simp [List.mem_toFinset, hp.mem_iff]
      rw [shannon_entropy, shannon_entropy, if_neg hnil, if_neg hnil', hfs]
      congr 1
      apply Finset.sum_congr rfl
      intro b _
      rw [hp.count_eq, hp.length_eq]

/-- C9 witness: entropy `8.0` on the string of all 256 byte values, and
permutation invariance on a concrete reordering. -/
theorem shannon_entropy_spec_witness :
    shannon_entropy (List.range 256) = 8 ∧
    shannon_entropy [3, 5] = shannon_entropy [5, 3] :=
  ⟨shannon_entropy_spec.2.1 (List.range 256)
      (fun b hb => List.mem_range.mp hb)
      (fun b hb => List.count_eq_one_of_mem (List.nodup_range 256) (List.mem_range.mpr hb)),
    shannon_entropy_spec.2.2 [3, 5] [5, 3] (by decide)⟩

/-- C8 counterexample: with the passive recorder installed, a `send` whose
destination is not registered appends a snapshot to the recorder log while
the Router forwards nothing, so not every log entry corresponds to a
message the Router forwarded to a destination. -/
theorem recorder_entry_without_forward :
    (handle_send none true 5 [] [] "Alice" "Bob" []).1 = [⟨5, "Alice", "Bob", []⟩] ∧
    (handle_send none true 5 [] [] "Alice" "Bob" []).2.1 = [] := by
  constructor <;> rfl

/-- C8 amended: with the passive recorder installed, one immutable
`AttackerRecord` snapshot `(time, from, to, payload)` is appended for every
`send` envelope that passes the interceptor — whether or not the
destination is registered or the delivery succeeds — and consequently for
every message the Router forwards; a message dropped by the interceptor is
not recorded, and anything the Router does forward went to the recorded
destination with the recorded payload. -/
theorem recorder_records_every_pass
    (interceptor : Option (String → String → List (String × JVal) → Option (List (String × JVal))))
    (now : Nat) (registry : List (String × Bool)) (records : List AttackerRecord)
    (sender dest : String) (payload : List (String × JVal)) :
    (interceptResult interceptor sender dest payload = none →
      handle_send interceptor true now registry records sender dest payload
        = (records, [], registry)) ∧
    (∀ payload2, interceptResult interceptor sender dest payload = some payload2 →
      (handle_send interceptor true now registry records sender dest payload).1
          = records ++ [⟨now, sender, dest, toSafePayload payload2⟩] ∧
      ∀ d p, (d, p) ∈ (handle_send interceptor true now registry records sender dest payload).2.1 →
        d = dest ∧ p = payload2) := by
  constructor
  · intro h
    unfold handle_send
    rw [h]
  · intro payload2 h
    unfold handle_send
    rw [h]
    simp only [if_pos rfl]
    constructor
    · cases hreg : registry.lookup dest with
      | none => simp [recorderAppend]
      | some ok =>
        cases ok <;> simp [recorderAppend]
    · intro d p hp
      cases hreg : registry.lookup dest with
      | none => simp [hreg] at hp
      | some ok =>
        cases ok with
        | false => simp [hreg] at hp
        | true =>
          simp [hreg] at hp
          exact ⟨hp.1, hp.2⟩

/-- C8 witness of the amended claim: one recorded and forwarded message to a
registered destination, with a payload whose bytes field is snapshotted in
hex. -/
theorem recorder_records_every_pass_witness :
    (handle_send none true 7 [("Bob", true)] [] "Alice" "Bob" [("rb", JVal.jbytes [255])]).1
      = [] ++ [⟨7, "Alice", "Bob", toSafePayload [("rb", JVal.jbytes [255])]⟩] ∧
    ∀ d p, (d, p) ∈ (handle_send none true 7 [("Bob", true)] [] "Alice" "Bob"
        [("rb", JVal.jbytes [255])]).2.1 →
      d = "Bob" ∧ p = [("rb", JVal.jbytes [255])] :=
  (recorder_records_every_pass none 7 [("Bob", true)] [] "Alice" "Bob"
    [("rb", JVal.jbytes [255])]).2 [("rb", JVal.jbytes [255])] rfl

/-! Helper lemmas for the session-table transition system. -/

theorem flagsLe_refl (s : Session) : FlagsLe s s :=
  ⟨id, id, id, id⟩

theorem flagsLe_trans {a b c : Session} (h1 : FlagsLe a b) (h2 : FlagsLe b c) : FlagsLe a c :=
  ⟨fun h => h2.1 (h1.1 h), fun h => h2.2.1 (h1.2.1 h),
    fun h => h2.2.2.1 (h1.2.2.1 h), fun h => h2.2.2.2 (h1.2.2.2 h)⟩

theorem lookupSession_update_self (t : List (Nat × Session)) (sid : Nat) (f : Session → Session) :
    lookupSession (updateSession t sid f) sid = (lookupSession t sid).map f := by
  induction t with
  | nil => rfl
  | cons p rest ih =>
    obtain ⟨k, s⟩ := p
    simp only [updateSession]
    by_cases hk : k = sid
    · rw [if_pos hk]
      subst hk
      simp [lookupSession]
    · rw [if_neg hk]
      simp [lookupSession, hk, ih]

theorem lookupSession_update_ne (t : List (Nat × Session)) (sid sid' : Nat)
    (f : Session → Session) (h : sid' ≠ sid) :
    lookupSession (updateSession t sid f) sid' = lookupSession t sid' := by
  induction t with
  | nil => rfl
  | cons p rest ih =>
    obtain ⟨k, s⟩ := p
    simp only [updateSession]
    by_cases hk : k = sid
    · rw [if_pos hk]
      subst hk
      have hk' : k ≠ sid' := fun hc => h hc.symm
      simp [lookupSession, hk', ih]
    · rw [if_neg hk]
      simp [lookupSession, ih]

theorem updateSession_keys (t : List (Nat × Session)) (sid : Nat) (f : Session → Session) :
    (updateSession t sid f).map Prod.fst = t.map Prod.fst := by
  induction t with
  | nil => rfl
  | cons p rest ih =>
    obtain ⟨k, s⟩ := p
    simp only [updateSession]
    by_cases hk : k = sid
    · rw [if_pos hk]
      simp [ih]
    · rw [if_neg hk]
      simp [ih]

theorem lookupSession_append (t1 t2 : List (Nat × Session)) (sid : Nat) :
    lookupSession (t1 ++ t2) sid
      = match lookupSession t1 sid with
        | some s => some s
        | none => lookupSession t2 sid := by
  induction t1 with
  | nil => rfl
  | cons p rest ih =>
    obtain ⟨k, s⟩ := p
    by_cases hk : k = sid <;> simp [lookupSession, hk, ih]

theorem lookupSession_mem_keys (t : List (Nat × Session)) (sid : Nat) (s : Session)
    (h : lookupSession t sid = some s) : sid ∈ t.map Prod.fst := by
  induction t with
  | nil => exact absurd h (by simp [lookupSession])
  | cons p rest ih =>
    obtain ⟨k, s'⟩ := p
    by_cases hk : k = sid
    · subst hk
      simp
    · simp only [lookupSession, if_neg hk] at h
      simp [ih h]

theorem findSession_lookup (t : List (Nat × Session)) (p : Nat → Session → Bool) (sid : Nat)
    (hnd : (t.map Prod.fst).Nodup) (h : findSession t p = some sid) :
    ∃ s, lookupSession t sid = some s ∧ p sid s = true := by
  induction t with
  | nil => exact absurd h (by simp [findSession])
  | cons q rest ih =>
    obtain ⟨k, s⟩ := q
    simp only [findSession] at h
    by_cases hp : p k s
    · rw [if_pos hp] at h
      injection h with h
      subst h
      exact ⟨s, by simp [lookupSession], hp⟩
    · rw [if_neg hp] at h
      have hnd' : (rest.map Prod.fst).Nodup := (List.nodup_cons.mp (by simpa using hnd)).2
      obtain ⟨s', hl, hp'⟩ := ih hnd' h
      have hk : k ≠ sid := by
        intro hc
        subst hc
        exact (List.nodup_cons.mp (by simpa using hnd)).1 (lookupSession_mem_keys rest k s' hl)
      exact ⟨s', by simp [lookupSession, hk, hl], hp'⟩

theorem monoTable_refl (t : List (Nat × Session)) : MonoTable t t :=
  fun _ a ha => ⟨a, ha, flagsLe_refl a⟩

theorem monoTable_trans {t1 t2 t3 : List (Nat × Session)}
    (h1 : MonoTable t1 t2) (h2 : MonoTable t2 t3) : MonoTable t1 t3 := by
  intro sid a ha
  obtain ⟨b, hb, hab⟩ := h1 sid a ha
  obtain ⟨c, hc, hbc⟩ := h2 sid b hb
  exact ⟨c, hc, flagsLe_trans hab hbc⟩

theorem monoTable_update (t : List (Nat × Session)) (sid0 : Nat) (f : Session → Session)
    (hf : ∀ s, FlagsLe s (f s)) : MonoTable t (updateSession t sid0 f) := by
  intro sid a ha
  by_cases h : sid = sid0
  · subst h
    refine ⟨f a, ?_, hf a⟩
    rw [lookupSession_update_self, ha]
    rfl
  · exact ⟨a, by rw [lookupSession_update_ne t sid0 sid f h]; exact ha, flagsLe_refl a⟩

theorem monoTable_update_at (t : List (Nat × Session)) (sid0 : Nat) (f : Session → Session)
    (s0 : Session) (hl : lookupSession t sid0 = some s0) (hf : FlagsLe s0 (f s0)) :
    MonoTable t (updateSession t sid0 f) := by
  intro sid a ha
  by_cases h : sid = sid0
  · subst h
    have : a = s0 := by
      rw [ha] at hl
      injection hl
    subst this
    refine ⟨f a, ?_, hf⟩
    rw [lookupSession_update_self, ha]
    rfl
  · exact ⟨a, by rw [lookupSession_update_ne t sid0 sid f h]; exact ha, flagsLe_refl a⟩

theorem monoTable_append (t : List (Nat × Session)) (x : Nat × Session) :
    MonoTable t (t ++ [x]) := by
  intro sid a ha
  refine ⟨a, ?_, flagsLe_refl a⟩
  rw [lookupSession_append, ha]

theorem loggedBit_le_one (t : List (Nat × Session)) (sid : Nat) : loggedBit t sid ≤ 1 := by
  unfold loggedBit
  cases lookupSession t sid with
  | none => exact Nat.zero_le 1
  | some s =>
    by_cases h : s.logged <;> simp [h]

theorem loggedBit_mono {t t' : List (Nat × Session)} (hm : MonoTable t t') (sid : Nat)
    (h : loggedBit t sid = 1) : loggedBit t' sid = 1 := by
  cases hl : lookupSession t sid with
  | none => simp [loggedBit, hl] at h
  | some s =>
    obtain ⟨b, hb, hab⟩ := hm sid s hl
    simp only [loggedBit, hl] at h
    simp only [loggedBit, hb]
    by_cases hs : s.logged
    · simp [hab.2.2.2 hs]
    · simp [hs] at h

theorem logStep_trans {st1 st2 st3 : SMState}
    (hm1 : MonoTable st1.session_state st2.session_state)
    (hm2 : MonoTable st2.session_state st3.session_state)
    (h1 : LogStep st1 st2) (h2 : LogStep st2 st3) : LogStep st1 st3 := by
  intro sid
  have e1 := h1 sid
  have e2 := h2 sid
  have b1 := loggedBit_le_one st1.session_state sid
  have b2 := loggedBit_le_one st2.session_state sid
  have b3 := loggedBit_le_one st3.session_state sid
  have m1 : loggedBit st1.session_state sid = 1 → loggedBit st2.session_state sid = 1 :=
    loggedBit_mono hm1 sid
  have m2 : loggedBit st2.session_state sid = 1 → loggedBit st3.session_state sid = 1 :=
    loggedBit_mono hm2 sid
  rcases (by omega :
      loggedBit st1.session_state sid = 0 ∨ loggedBit st1.session_state sid = 1) with c1 | c1 <;>
    rcases (by omega :
      loggedBit st2.session_state sid = 0 ∨ loggedBit st2.session_state sid = 1) with c2 | c2 <;>
      rcases (by omega :
        loggedBit st3.session_state sid = 0 ∨ loggedBit st3.session_state sid = 1) with c3 | c3 <;>
        simp only [c1, c2, c3] at e1 e2 m1 m2 ⊢ <;> simp at * <;> omega

theorem recCount_append_row (records : List SessionRecord) (row : SessionRecord) (sid : Nat) :
    recCount (records ++ [row]) sid
      = recCount records sid + (if row.session_id = sid then 1 else 0) := by
  unfold recCount
  rw [List.countP_append]
  by_cases h : row.session_id = sid <;> simp [h]

theorem loggedBit_update_preserve (t : List (Nat × Session)) (sid0 : Nat) (f : Session → Session)
    (hf : ∀ s, (f s).logged = s.logged) (sid : Nat) :
    loggedBit (updateSession t sid0 f) sid = loggedBit t sid := by
  by_cases h : sid = sid0
  · subst h
    simp only [loggedBit, lookupSession_update_self]
    cases hl : lookupSession t sid with
    | none => rfl
    | some s => simp [hf]
  · simp [loggedBit, lookupSession_update_ne t sid0 sid f h]

theorem logStep_no_append {st st' : SMState} (hr : st'.records = st.records)
    (hb : ∀ sid, loggedBit st'.session_state sid = loggedBit st.session_state sid) :
    LogStep st st' := by
  intro sid
  rw [hr, hb, if_neg (by omega)]
  omega

theorem logStep_append (st : SMState) (sid0 : Nat) (f : Session → Session) (row : SessionRecord)
    (hrow : row.session_id = sid0) (s0 : Session)
    (hl : lookupSession st.session_state sid0 = some s0) (hs0 : s0.logged = false)
    (hf_log : ∀ s, (f s).logged = true) :
    LogStep st ⟨updateSession st.session_state sid0 f, st.records ++ [row]⟩ := by
  intro sid
  simp only
  rw [recCount_append_row]
  by_cases h : sid = sid0
  · subst h
    rw [if_pos hrow]
    have hb0 : loggedBit st.session_state sid = 0 := by
      simp [loggedBit, hl, hs0]
    have hb1 : loggedBit (updateSession st.session_state sid f) sid = 1 := by
      simp only [loggedBit, lookupSession_update_self, hl]
      simp [hf_log]
    rw [if_pos ⟨hb0, hb1⟩]
  · rw [if_neg (by rw [hrow]; exact fun hc => h hc.symm)]
    have hb : loggedBit (updateSession st.session_state sid0 f) sid
        = loggedBit st.session_state sid := by
      simp [loggedBit, lookupSession_update_ne st.session_state sid0 sid f h]
    rw [hb, if_neg (by omega)]

theorem flagsLe_set_logged (s : Session) : FlagsLe s { s with logged := true } :=
  ⟨id, id, id, fun _ => rfl⟩

theorem monoTable_logIfStep (st : SMState) (sid : Nat) (guard : Session → Bool)
    (row : Session → SessionRecord) :
    MonoTable st.session_state (logIfStep st sid guard row).session_state := by
  unfold logIfStep
  split
  · exact monoTable_refl _
  · split
    · exact monoTable_update _ _ _ flagsLe_set_logged
    · exact monoTable_refl _

theorem keys_logIfStep (st : SMState) (sid : Nat) (guard : Session → Bool)
    (row : Session → SessionRecord) :
    (logIfStep st sid guard row).session_state.map Prod.fst
      = st.session_state.map Prod.fst := by
  unfold logIfStep
  split
  · rfl
  · split
    · exact updateSession_keys _ _ _
    · rfl

theorem logStep_logIfStep (st : SMState) (sid : Nat) (guard : Session → Bool)
    (row : Session → SessionRecord)
    (hg_logged : ∀ s, guard s = true → s.logged = false)
    (hrow : ∀ s, (row s).session_id = sid) :
    LogStep st (logIfStep st sid guard row) := by
  unfold logIfStep
  split
  · exact logStep_no_append rfl (fun _ => rfl)
  · rename_i s hl
    split
    · rename_i hg
      exact logStep_append st sid _ (row s) (hrow s) s hl (hg_logged s hg) (fun _ => rfl)
    · exact logStep_no_append rfl (fun _ => rfl)

theorem mem_keys_lookup (t : List (Nat × Session)) (sid : Nat)
    (h : sid ∈ t.map Prod.fst) : ∃ s, lookupSession t sid = some s := by
  induction t with
  | nil => simp at h
  | cons p rest ih =>
    obtain ⟨k, s⟩ := p
    by_cases hk : k = sid
    · exact ⟨s, by simp [lookupSession, hk]⟩
    · simp only [List.map_cons, List.mem_cons] at h
      rcases h with h | h
      · exact absurd h.symm hk
      · obtain ⟨s', hs'⟩ := ih h
        exact ⟨s', by simp [lookupSession, hk, hs']⟩

theorem alice_on_challenge_rb_step (E : List Nat → List Nat → List Nat)
    (key iv rbPayload : List Nat) (st : SMState) :
    (alice_on_challenge_rb E key iv rbPayload st).session_state.map Prod.fst
        = st.session_state.map Prod.fst ∧
    MonoTable st.session_state (alice_on_challenge_rb E key iv rbPayload st).session_state ∧
    LogStep st (alice_on_challenge_rb E key iv rbPayload st) := by
  unfold alice_on_challenge_rb
  dsimp only
  split
  · exact ⟨rfl, monoTable_refl _, logStep_no_append rfl (fun _ => rfl)⟩
  · refine ⟨updateSession_keys _ _ _,
      monoTable_update _ _ _ (fun s => ⟨fun _ => rfl, id, id, id⟩), ?_⟩
    refine logStep_no_append rfl (fun sid2 => ?_)
    refine loggedBit_update_preserve st.session_state _ _ ?_ sid2
    intro s
    rfl

theorem bob_on_init_ra_step (E : List Nat → List Nat → List Nat)
    (key iv raPayload rbNew : List Nat) (st : SMState) :
    (bob_on_init_ra E key iv raPayload rbNew st).session_state.map Prod.fst
        = st.session_state.map Prod.fst ∧
    MonoTable st.session_state (bob_on_init_ra E key iv raPayload rbNew st).session_state ∧
    LogStep st (bob_on_init_ra E key iv raPayload rbNew st) := by
  unfold bob_on_init_ra
  dsimp only
  split
  · exact ⟨rfl, monoTable_refl _, logStep_no_append rfl (fun _ => rfl)⟩
  · refine ⟨updateSession_keys _ _ _,
      monoTable_update _ _ _ (fun s => ⟨id, fun _ => rfl, id, id⟩), ?_⟩
    refine logStep_no_append rfl (fun sid2 => ?_)
    refine loggedBit_update_preserve st.session_state _ _ ?_ sid2
    intro s
    rfl

theorem alice_on_bob_ra_rb_step (E D : List Nat → List Nat → List Nat)
    (key iv : List Nat) (raPayload c1Payload : Option (List Nat)) (st : SMState)
    (hnd : tableKeysNodup st) :
    (alice_on_bob_ra_rb E D key iv raPayload c1Payload st).session_state.map Prod.fst
        = st.session_state.map Prod.fst ∧
    MonoTable st.session_state (alice_on_bob_ra_rb E D key iv raPayload c1Payload st).session_state ∧
    LogStep st (alice_on_bob_ra_rb E D key iv raPayload c1Payload st) := by
  unfold alice_on_bob_ra_rb
  dsimp only
  split
  · exact ⟨rfl, monoTable_refl _, logStep_no_append rfl (fun _ => rfl)⟩
  · rename_i sid hfind
    obtain ⟨s0, hl, hpred⟩ := findSession_lookup _ _ _ hnd hfind
    have hs0 : s0.alice_final_sent = false := by
      simp only [Bool.and_eq_true, Bool.not_eq_true'] at hpred
      exact hpred.2
    split
    · refine ⟨updateSession_keys _ _ _,
        monoTable_update _ _ _ (fun s => ⟨id, id, fun _ => rfl, id⟩), ?_⟩
      refine logStep_no_append rfl (fun sid2 => ?_)
      refine loggedBit_update_preserve st.session_state _ _ ?_ sid2
      intro s
      rfl
    · refine ⟨updateSession_keys _ _ _,
        monoTable_update_at _ _ _ s0 hl ⟨id, id, fun h => absurd h (by simp [hs0]), id⟩, ?_⟩
      refine logStep_no_append rfl (fun sid2 => ?_)
      refine loggedBit_update_preserve st.session_state _ _ ?_ sid2
      intro s
      rfl

theorem on_incoming_response_rb_at_bob_step (D : List Nat → List Nat → List Nat)
    (key : List Nat) (respPayload : Option (List Nat)) (st : SMState)
    (hnd : tableKeysNodup st) :
    (on_incoming_response_rb_at_bob D key respPayload st).session_state.map Prod.fst
        = st.session_state.map Prod.fst ∧
    MonoTable st.session_state (on_incoming_response_rb_at_bob D key respPayload st).session_state ∧
    LogStep st (on_incoming_response_rb_at_bob D key respPayload st) := by
  unfold on_incoming_response_rb_at_bob on_incoming_response_rb_find on_incoming_response_rb_commit
  dsimp only
  split
  · exact ⟨rfl, monoTable_refl _, logStep_no_append rfl (fun _ => rfl)⟩
  · rename_i sid hfind
    split
    · exact ⟨rfl, monoTable_refl _, logStep_no_append rfl (fun _ => rfl)⟩
    · rename_i s hl2
      obtain ⟨s0, hl, hpred⟩ := findSession_lookup _ _ _ hnd hfind
      have hs : s0 = s := by
        rw [hl] at hl2
        injection hl2
      subst hs
      have hlog : s0.logged = false := by
        simp only [Bool.and_eq_true, Bool.not_eq_true'] at hpred
        exact hpred.1.2
      refine ⟨updateSession_keys _ _ _, monoTable_update _ _ _ flagsLe_set_logged, ?_⟩
      exact logStep_append st sid _ _ rfl s0 hl hlog (fun _ => rfl)

theorem create_session_step (sid : Nat) (proto : String) (ts : Nat)
    (aflag irep irg : Bool) (nonce : List Nat) (st : SMState) :
    ((create_session sid proto ts aflag irep irg nonce st).session_state.map Prod.fst
        = st.session_state.map Prod.fst ++ [sid]) ∧
    MonoTable st.session_state (create_session sid proto ts aflag irep irg nonce st).session_state ∧
    LogStep st (create_session sid proto ts aflag irep irg nonce st) := by
  unfold create_session
  dsimp only
  refine ⟨by simp, monoTable_append _ _, ?_⟩
  refine logStep_no_append ?_ (fun sid2 => ?_)
  · rfl
  simp only [loggedBit, lookupSession_append]
  cases hl : lookupSession st.session_state sid2 with
  | some s => rfl
  | none =>
    by_cases h : sid = sid2
    · subst h
      by_cases hb : (proto == "one-way") = true <;> simp [lookupSession, hb]
    · simp [lookupSession, h]

theorem reconcileEntry_step (D : List Nat → List Nat → List Nat) (key : List Nat)
    (st : SMState) (sid : Nat) :
    ((reconcileEntry D key st sid).session_state.map Prod.fst
        = st.session_state.map Prod.fst) ∧
    MonoTable st.session_state (reconcileEntry D key st sid).session_state ∧
    LogStep st (reconcileEntry D key st sid) := by
  have h1g : ∀ s : Session,
      (!s.logged && (s.protocol_type == "one-way") &&
        optTruthy s.alice_response && optTruthy s.rb) = true → s.logged = false := by
    intro s hs
    simp only [Bool.and_eq_true, Bool.not_eq_true'] at hs
    exact hs.1.1.1
  have h2g : ∀ s : Session,
      (!s.logged && (s.protocol_type == "two-way") &&
        optTruthy s.alice_response && optTruthy s.bob_response && optTruthy s.rb_bytes) = true →
        s.logged = false := by
    intro s hs
    simp only [Bool.and_eq_true, Bool.not_eq_true'] at hs
    exact hs.1.1.1.1
  have k1 : (reconcileOneWay D key st sid).session_state.map Prod.fst
      = st.session_state.map Prod.fst := keys_logIfStep st sid _ _
  have m1 : MonoTable st.session_state (reconcileOneWay D key st sid).session_state :=
    monoTable_logIfStep st sid _ _
  have l1 : LogStep st (reconcileOneWay D key st sid) := by
    refine logStep_logIfStep st sid _ _ ?_ (fun _ => rfl)
    exact h1g
  have k2 : (reconcileTwoWay D key (reconcileOneWay D key st sid) sid).session_state.map Prod.fst
      = (reconcileOneWay D key st sid).session_state.map Prod.fst :=
    keys_logIfStep (reconcileOneWay D key st sid) sid _ _
  have m2 : MonoTable (reconcileOneWay D key st sid).session_state
      (reconcileTwoWay D key (reconcileOneWay D key st sid) sid).session_state :=
    monoTable_logIfStep (reconcileOneWay D key st sid) sid _ _
  have l2 : LogStep (reconcileOneWay D key st sid)
      (reconcileTwoWay D key (reconcileOneWay D key st sid) sid) := by
    refine logStep_logIfStep (reconcileOneWay D key st sid) sid _ _ ?_ (fun _ => rfl)
    exact h2g
  exact ⟨by unfold reconcileEntry; rw [k2, k1],
    monoTable_trans m1 m2, logStep_trans m1 m2 l1 l2⟩

theorem reconcileFold_step (D : List Nat → List Nat → List Nat) (key : List Nat) :
    ∀ (sids : List Nat) (st : SMState),
      ((sids.foldl (reconcileEntry D key) st).session_state.map Prod.fst
          = st.session_state.map Prod.fst) ∧
      MonoTable st.session_state (sids.foldl (reconcileEntry D key) st).session_state ∧
      LogStep st (sids.foldl (reconcileEntry D key) st) := by
  intro sids
  induction sids with
  | nil => exact fun st => ⟨rfl, monoTable_refl _, logStep_no_append rfl (fun _ => rfl)⟩
  | cons sid rest ih =>
    intro st
    obtain ⟨k1, m1, l1⟩ := reconcileEntry_step D key st sid
    obtain ⟨k2, m2, l2⟩ := ih (reconcileEntry D key st sid)
    exact ⟨by rw [List.foldl_cons, k2, k1], monoTable_trans m1 m2, logStep_trans m1 m2 l1 l2⟩

theorem reconcilePass_step (D : List Nat → List Nat → List Nat) (key : List Nat) (st : SMState) :
    ((reconcilePass D key st).session_state.map Prod.fst = st.session_state.map Prod.fst) ∧
    MonoTable st.session_state (reconcilePass D key st).session_state ∧
    LogStep st (reconcilePass D key st) :=
  reconcileFold_step D key (st.session_state.map Prod.fst) st

theorem applyStep_facts (E D : List Nat → List Nat → List Nat) (key : List Nat)
    (step : SMStep) (st : SMState) (hnd : tableKeysNodup st) :
    MonoTable st.session_state (applyStep E D key step st).session_state ∧
    LogStep st (applyStep E D key step st) ∧
    (stepOk st step = true → tableKeysNodup (applyStep E D key step st)) := by
  cases step with
  | create sid proto ts aflag irep irg nonce =>
    obtain ⟨k, m, l⟩ := create_session_step sid proto ts aflag irep irg nonce st
    refine ⟨m, l, ?_⟩
    intro hok
    simp only [stepOk, Option.isNone_iff_eq_none] at hok
    have hmem : sid ∉ st.session_state.map Prod.fst := by
      intro hmem
      obtain ⟨s, hs⟩ := mem_keys_lookup st.session_state sid hmem
      rw [hs] at hok
      exact Option.noConfusion hok
    unfold tableKeysNodup at *
    simp only [applyStep]
    rw [k, List.nodup_append]
    refine ⟨hnd, List.nodup_singleton sid, ?_⟩
    intro a ha hb
    simp only [List.mem_singleton] at hb
    subst hb
    exact hmem ha
  | challengeRb iv rbPayload =>
    obtain ⟨k, m, l⟩ := alice_on_challenge_rb_step E key iv rbPayload st
    exact ⟨m, l, fun _ => by unfold tableKeysNodup at *; simp only [applyStep]; rw [k]; exact hnd⟩
  | initRa iv raPayload rbNew =>
    obtain ⟨k, m, l⟩ := bob_on_init_ra_step E key iv raPayload rbNew st
    exact ⟨m, l, fun _ => by unfold tableKeysNodup at *; simp only [applyStep]; rw [k]; exact hnd⟩
  | bobRaRb iv raPayload c1Payload =>
    obtain ⟨k, m, l⟩ := alice_on_bob_ra_rb_step E D key iv raPayload c1Payload st hnd
    exact ⟨m, l, fun _ => by unfold tableKeysNodup at *; simp only [applyStep]; rw [k]; exact hnd⟩
  | responseRb respPayload =>
    obtain ⟨k, m, l⟩ := on_incoming_response_rb_at_bob_step D key respPayload st hnd
    exact ⟨m, l, fun _ => by unfold tableKeysNodup at *; simp only [applyStep]; rw [k]; exact hnd⟩
  | reconcile =>
    obtain ⟨k, m, l⟩ := reconcilePass_step D key st
    exact ⟨m, l, fun _ => by unfold tableKeysNodup at *; simp only [applyStep]; rw [k]; exact hnd⟩

theorem inv_fold (E D : List Nat → List Nat → List Nat) (key : List Nat) :
    ∀ (steps : List SMStep) (st : SMState),
      wfFrom E D key st steps = true →
      tableKeysNodup st →
      (∀ sid, recCount st.records sid ≤ loggedBit st.session_state sid) →
      tableKeysNodup (runFrom E D key st steps) ∧
      (∀ sid, recCount (runFrom E D key st steps).records sid
          ≤ loggedBit (runFrom E D key st steps).session_state sid) := by
  intro steps
  induction steps with
  | nil => exact fun st _ hnd hbound => ⟨hnd, hbound⟩
  | cons s rest ih =>
    intro st hwf hnd hbound
    simp only [wfFrom, Bool.and_eq_true] at hwf
    obtain ⟨hok, hwf'⟩ := hwf
    obtain ⟨m, l, nd⟩ := applyStep_facts E D key s st hnd
    have hnd' := nd hok
    have hbound' : ∀ sid, recCount (applyStep E D key s st).records sid
        ≤ loggedBit (applyStep E D key s st).session_state sid := by
      intro sid
      have e := l sid
      have b0 := loggedBit_le_one st.session_state sid
      have b1 := loggedBit_le_one (applyStep E D key s st).session_state sid
      have hb := hbound sid
      rcases (by omega : loggedBit st.session_state sid = 0
          ∨ loggedBit st.session_state sid = 1) with c0 | c0
      · rcases (by omega : loggedBit (applyStep E D key s st).session_state sid = 0
            ∨ loggedBit (applyStep E D key s st).session_state sid = 1) with c1 | c1
        · rw [c0, c1] at e
          rw [if_neg (by omega)] at e
          omega
        · rw [c0, c1] at e
          rw [if_pos ⟨rfl, rfl⟩] at e
          omega
      · have c1 : loggedBit (applyStep E D key s st).session_state sid = 1 :=
          loggedBit_mono m sid c0
        rw [c0, c1] at e
        rw [if_neg (by omega)] at e
        omega
    exact ih (applyStep E D key s st) hwf' hnd' hbound'

/-- Invariants of the *sequential* execution model, in which each callback
runs its two critical sections back to back with no other thread taking
the session lock in between: the progress flags `alice_responded`,
`bob_responded`, `alice_final_sent` and `logged` only ever transition from
`False` to `True`; one output row for a session is appended exactly when
that session's `logged` flag flips from unset to set; and over every run
from the initial state in which created session ids are fresh, each
session's record is appended at most once.  The flag-monotonicity part
also holds for the real interleaved program (no code path ever writes a
set flag back to `False`, and `alice_final_sent := False` is only written
by the single thread that guards it); the at-most-once part does not —
the source splits the `response_rb` callback's search and its
append+`logged` write across two lock acquisitions, and the double-append
theorem below exhibits the schedulable interleaving with the
reconciliation pass that breaks it. -/
theorem session_progress_invariants :
    (∀ (E D : List Nat → List Nat → List Nat) (key : List Nat) (step : SMStep) (st : SMState),
      tableKeysNodup st →
      ∀ sid a b, lookupSession st.session_state sid = some a →
        lookupSession (applyStep E D key step st).session_state sid = some b →
        FlagsLe a b) ∧
    (∀ (E D : List Nat → List Nat → List Nat) (key : List Nat) (step : SMStep) (st : SMState),
      tableKeysNodup st →
      ∀ sid, recCount (applyStep E D key step st).records sid
        = recCount st.records sid +
          (if loggedBit st.session_state sid = 0 ∧
              loggedBit (applyStep E D key step st).session_state sid = 1 then 1 else 0)) ∧
    (∀ (E D : List Nat → List Nat → List Nat) (key : List Nat) (steps : List SMStep),
      wfFrom E D key initSM steps = true →
      ∀ sid, recCount (runFrom E D key initSM steps).records sid ≤ 1) := by
  refine ⟨?_, ?_, ?_⟩
  · intro E D key step st hnd sid a b ha hb
    obtain ⟨m, _, _⟩ := applyStep_facts E D key step st hnd
    obtain ⟨b', hb', hle⟩ := m sid a ha
    rw [hb] at hb'
    injection hb' with hb2
    exact hb2 ▸ hle
  · intro E D key step st hnd sid
    exact (applyStep_facts E D key step st hnd).2.1 sid
  · intro E D key steps hwf sid
    have h := inv_fold E D key steps initSM hwf
      (by simp [tableKeysNodup, initSM])
      (by intro sid2; simp [recCount, initSM])
    exact le_trans (h.2 sid) (loggedBit_le_one _ _)

/-- Sequential-model invariants evaluated on a concrete two-step run —
create a one-way session, then log it via Bob's uninterleaved
`response_rb` callback — which appends its record once. -/
theorem session_progress_invariants_witness :
    recCount (runFrom (fun _ b => b) (fun _ b => b) (List.replicate 32 0) initSM
      [SMStep.create 0 "one-way" 11 false false false (List.replicate 16 1),
       SMStep.responseRb (some [2])]).records 0 ≤ 1 :=
  session_progress_invariants.2.2 (fun _ b => b) (fun _ b => b) (List.replicate 32 0)
    [SMStep.create 0 "one-way" 11 false false false (List.replicate 16 1),
     SMStep.responseRb (some [2])] (by decide) 0

/-- C7: the claimed at-most-once logging invariant is the spec's clear
intent (the single session lock exists so that "not logging twice"
dominates) but the code does not uphold it.
`_on_incoming_response_rb_at_bob` performs its session search in one
critical section, verifies without the lock, and appends the row and sets
`logged` in a second critical section that never re-checks `logged`; the
reconciliation pass of `run` is a separate critical section on the
orchestrator thread, and nothing joins Bob's receive thread before it
runs.  In the schedulable interleaving shown here — starting from
`raceState`, Bob's search picks session 0, the reconciliation pass then
logs session 0 and appends its row, and Bob's second critical section
appends a second row for session 0 — the same session's record is
appended twice, contradicting "appended at most once, with `logged` set
exactly on the transition that appends the record". -/
theorem response_rb_reconcile_double_append :
    on_incoming_response_rb_find raceState = some 0 ∧
    recCount (reconcilePass (fun _ b => b) (List.replicate 32 0) raceState).records 0 = 1 ∧
    loggedBit (reconcilePass (fun _ b => b) (List.replicate 32 0) raceState).session_state 0 = 1 ∧
    recCount (on_incoming_response_rb_commit (fun _ b => b) (List.replicate 32 0) (some [2]) 0
        (reconcilePass (fun _ b => b) (List.replicate 32 0) raceState)).records 0 = 2 := by
  refine ⟨by decide, by decide, by decide, by decide⟩

end AuthSim
